import Mathlib

/-! EmployeeOrgApp: organisation tree with move / undo / redo.

Shallow embedding of `src/src/employeeClass.ts` (compiled to
`src/build/js/employeeClass.js`) and of the sample run in `src/build/js/main.js`.

Modelling decisions.

* `Employee` objects form the object graph reachable from `ceo`.  The embedding
  takes this graph to be a tree (every object has one owner), as it is for an
  object literal such as the one in `main.js`.
* `uniqueId : number` is an integer here; `===` on identifiers is equality.
* `throw new Error(msg)` is recorded in `Outcome.thrown`; the fields of the
  application object at the moment the call returns or throws are in
  `Outcome.app`, so that mutations made before a `throw` stay visible.
* JavaScript arrays used as stacks keep their order: `push` appends at the end,
  `pop` removes the last element.
* A write through an object reference (`x.subordinates = ...`,
  `x.subordinates.push(...)`) is rendered by `updateNode`, which rewrites the
  first node in pre-order carrying the identifier of `x`, the node `findEmployee`
  returns for that identifier.  When `x` is no longer reachable from `ceo` the
  write is invisible from `ceo` and `updateNode` leaves the tree as it is.  This
  rendering is exact when identifiers are pairwise distinct; every statement below
  that depends on the rewritten tree assumes distinct identifiers.
-/

/-- An employee record: `uniqueId`, `name` and the ordered `subordinates`. -/
inductive Employee where
  | mk (uniqueId : Int) (name : String) (subordinates : List Employee)

namespace Employee

/-- Field `uniqueId`. -/
def uniqueId : Employee → Int
  | mk i _ _ => i

/-- Field `name`. -/
def name : Employee → String
  | mk _ n _ => n

/-- Field `subordinates`. -/
def subordinates : Employee → List Employee
  | mk _ _ l => l

end Employee

/-- The errors the class throws, one constructor per message. -/
inductive Error where
  /-- Thrown by `move`: 'Invalid employee or supervisor ID'. -/
  | invalidEmployeeOrSupervisorID
  /-- Thrown by `undo`: 'No actions to undo'. -/
  | noActionsToUndo
  /-- Thrown by `redo`: 'No actions to redo'. -/
  | noActionsToRedo
  /-- Thrown by `findSupervisor`: 'Employee not found'. -/
  | employeeNotFound
  deriving DecidableEq, Repr

/-- The message passed to `new Error(...)`. -/
def Error.message : Error → String
  | .invalidEmployeeOrSupervisorID => "Invalid employee or supervisor ID"
  | .noActionsToUndo => "No actions to undo"
  | .noActionsToRedo => "No actions to redo"
  | .employeeNotFound => "Employee not found"

/-- A history entry `{ employeeID, supervisorID }`. -/
structure HistoryEntry where
  employeeID : Int
  supervisorID : Int
  deriving DecidableEq, Repr

/-- The fields of the class `EmployeeOrgApp`. -/
structure EmployeeOrgApp where
  ceo : Employee
  undoStack : List HistoryEntry
  redoStack : List HistoryEntry

/-- What a method call leaves behind: the fields of the object and the error
thrown, if any. -/
structure Outcome where
  app : EmployeeOrgApp
  thrown : Option Error

mutual
/-- The method `findEmployee(employee, employeeID)`: the employee itself when its
identifier matches, otherwise the first result found in its subordinates, in
stored order; `none` is `undefined`. -/
def findEmployee : Employee → Int → Option Employee
  | .mk i n subs, employeeID =>
    if i = employeeID then some (.mk i n subs) else findEmployeeLoop subs employeeID
/-- The `for` loop of `findEmployee` over the subordinates. -/
def findEmployeeLoop : List Employee → Int → Option Employee
  | [], _ => none
  | subordinate :: rest, employeeID =>
    match findEmployee subordinate employeeID with
    | some result => some result
    | none => findEmployeeLoop rest employeeID
end

/-- The method `findSupervisor(employee, employeeID)`.  In the first iteration of
its loop the call either returns `employee`, or returns what the recursive call
returns, or the recursive call throws and the exception leaves the loop; with no
subordinates it throws 'Employee not found'.  No second iteration is reached,
because the recursive call never returns a falsy value. -/
def findSupervisor : Employee → Int → Except Error Employee
  | .mk _ _ [], _ => .error .employeeNotFound
  | .mk i n (subordinate :: rest), employeeID =>
    if subordinate.uniqueId = employeeID then .ok (.mk i n (subordinate :: rest))
    else findSupervisor subordinate employeeID

mutual
/-- Rewrite the subordinates of the first node in pre-order with identifier
`target` by `f`: an in-place write to the object `findEmployee` returns. -/
def updateNode (f : List Employee → List Employee) (target : Int) : Employee → Employee
  | .mk i n subs =>
    if i = target then .mk i n (f subs) else .mk i n (updateNodeLoop f target subs)
/-- The rewrite of `updateNode` inside a list of subordinates. -/
def updateNodeLoop (f : List Employee → List Employee) (target : Int) :
    List Employee → List Employee
  | [] => []
  | c :: cs =>
    if (findEmployee c target).isSome then updateNode f target c :: cs
    else c :: updateNodeLoop f target cs
end

namespace EmployeeOrgApp

/-- The constructor: both stacks start empty. -/
def new (ceo : Employee) : EmployeeOrgApp :=
  { ceo := ceo, undoStack := [], redoStack := [] }

/-- The method `move(employeeID, supervisorID)`. -/
def move (app : EmployeeOrgApp) (employeeID supervisorID : Int) : Outcome :=
  match findEmployee app.ceo employeeID, findEmployee app.ceo supervisorID with
  | some employee, some _supervisor =>
    match findSupervisor app.ceo employeeID with
    | .error err => { app := app, thrown := some err }
    | .ok currentSupervisor =>
      let ceo1 := updateNode (fun subs => subs.filter (fun e => e.uniqueId ≠ employeeID))
        currentSupervisor.uniqueId app.ceo
      let ceo2 := updateNode (fun subs => subs ++ [employee]) supervisorID ceo1
      { app := { ceo := ceo2
                 undoStack := app.undoStack ++ [{ employeeID := employeeID,
                                                  supervisorID := supervisorID }]
                 redoStack := [] }
        thrown := none }
  | _, _ => { app := app, thrown := some .invalidEmployeeOrSupervisorID }

/-- The method `undo()`. -/
def undo (app : EmployeeOrgApp) : Outcome :=
  match app.undoStack.getLast? with
  | none => { app := app, thrown := some .noActionsToUndo }
  | some action =>
    let app1 := { app with undoStack := app.undoStack.dropLast }
    match findSupervisor app1.ceo action.employeeID with
    | .error err => { app := app1, thrown := some err }
    | .ok supervisor =>
      let r := move app1 action.employeeID supervisor.uniqueId
      match r.thrown with
      | some err => { app := r.app, thrown := some err }
      | none => { app := { r.app with redoStack := r.app.redoStack ++ [action] }, thrown := none }

/-- The method `redo()`. -/
def redo (app : EmployeeOrgApp) : Outcome :=
  match app.redoStack.getLast? with
  | none => { app := app, thrown := some .noActionsToRedo }
  | some action =>
    let app1 := { app with redoStack := app.redoStack.dropLast }
    let r := move app1 action.employeeID action.supervisorID
    match r.thrown with
    | some err => { app := r.app, thrown := some err }
    | none => { app := { r.app with undoStack := r.app.undoStack ++ [action] }, thrown := none }

end EmployeeOrgApp

mutual
/-- Identifiers of a tree in depth-first pre-order. -/
def ids : Employee → List Int
  | .mk i _ subs => i :: idsList subs
/-- Identifiers of a list of trees, in order. -/
def idsList : List Employee → List Int
  | [] => []
  | c :: cs => ids c ++ idsList cs
end

/-- Identifiers of the direct subordinates of the node `findEmployee` returns for
`id`, in stored order. -/
def childIds (root : Employee) (id : Int) : Option (List Int) :=
  (findEmployee root id).map (fun n => n.subordinates.map Employee.uniqueId)

mutual
/-- All nodes of a tree (each with its subtree) in depth-first pre-order. -/
def nodes : Employee → List Employee
  | .mk i n subs => .mk i n subs :: nodesList subs
/-- All nodes of a list of trees, in order. -/
def nodesList : List Employee → List Employee
  | [] => []
  | c :: cs => nodes c ++ nodesList cs
end

/-- A node seen from outside: its identifier and the identifiers of its direct
subordinates, in stored order. -/
def entry (n : Employee) : Int × List Int :=
  (n.uniqueId, n.subordinates.map Employee.uniqueId)

/-- The parent relation of a tree: the entry of every node, in pre-order. -/
def shape (t : Employee) : List (Int × List Int) :=
  (nodes t).map entry

/-- The entries of all nodes of a list of trees. -/
def shapeList (l : List Employee) : List (Int × List Int) :=
  (nodesList l).map entry

/-- The tree of the scenario: 1 with subordinate 2 with subordinate 3. -/
def chain123 : Employee :=
  .mk 1 "a" [.mk 2 "b" [.mk 3 "c" []]]

/-- The hierarchy built in `main.js`. -/
def mainCeo : Employee :=
  .mk 1 "Mark Zuckerberg"
    [ .mk 2 "Sarah Donald"
        [ .mk 3 "Cassandra Reynolds"
            [ .mk 4 "Mary Blue" [],
              .mk 5 "Bob Saget" [ .mk 6 "Tina Teff" [ .mk 7 "Will Turner" [] ] ] ] ],
      .mk 8 "Tyler Simpson"
        [ .mk 9 "Harry Tobs" [ .mk 10 "Thomas Brown" [] ],
          .mk 11 "George Carrey" [],
          .mk 12 "Gary Styles" [] ],
      .mk 13 "Bruce Willis" [],
      .mk 14 "Georgina Flangy" [ .mk 15 "Sophie Turner" [] ] ]

/-- A call of one of the three public methods. -/
inductive Call where
  | move (employeeID supervisorID : Int)
  | undo
  | redo

/-- Run one call on the application object. -/
def run (app : EmployeeOrgApp) : Call → Outcome
  | .move employeeID supervisorID => app.move employeeID supervisorID
  | .undo => app.undo
  | .redo => app.redo

/-- Run a sequence of calls, the caller catching every error: each call starts
from the object the previous one left behind. -/
def runAll (app : EmployeeOrgApp) : List Call → EmployeeOrgApp
  | [] => app
  | c :: cs => runAll (run app c).app cs

/-- The leftmost spine of a tree: the node, its first subordinate, the first
subordinate of that one, and so on. -/
def spine : Employee → List Employee
  | .mk i n [] => [.mk i n []]
  | .mk i n (c :: cs) => .mk i n (c :: cs) :: spine c

/-- The parent lookup as the leftmost spine describes it: among the pairs of
consecutive spine nodes, the first pair whose lower node carries the identifier
gives its upper node; without such a pair the lookup throws 'Employee not
found'. -/
def spineLookup (n : Employee) (id : Int) : Except Error Employee :=
  match ((spine n).zip (spine n).tail).find? (fun pc => decide (pc.2.uniqueId = id)) with
  | some pc => .ok pc.1
  | none => .error .employeeNotFound

/-- The parent relation: `isParent t y x` holds when the node of `y` has a direct
subordinate with identifier `x`. -/
def isParent (t : Employee) (y x : Int) : Bool :=
  match childIds t y with
  | some v => decide (x ∈ v)
  | none => false

/-- A tree with two subordinates under the root: 1 with subordinates 2 and 3. -/
def fork123 : Employee :=
  .mk 1 "a" [.mk 2 "b" [], .mk 3 "c" []]

/-! ## Evaluation on the sample hierarchies -/

/-- C1: on the tree 1 > 2 > 3 (distinct identifiers, 3 not the root, 1 in the tree
and neither 3 nor below 3) `move(3, 1)` completes, and the parent lookup
`findSupervisor(ceo, 3)` on the resulting tree throws 'Employee not found'
instead of returning the node 1, although 3 is then a subordinate of 1. -/
theorem move_then_findSupervisor_throws :
    (ids chain123).Nodup ∧ chain123.uniqueId ≠ 3 ∧ 1 ∈ ids chain123 ∧
    (findEmployee chain123 3).map ids = some [3] ∧
    ((EmployeeOrgApp.new chain123).move 3 1).thrown = none ∧
    childIds ((EmployeeOrgApp.new chain123).move 3 1).app.ceo 1 = some [2, 3] ∧
    findSupervisor ((EmployeeOrgApp.new chain123).move 3 1).app.ceo 3
      = .error .employeeNotFound :=
  ⟨by decide, by decide, by decide, by decide, by decide, by decide, rfl⟩

/-- C2: on the hierarchy of `main.js` (distinct identifiers, 5 not the root, 2 in
the tree and neither 5 nor below 5) the call `move(5, 2)` throws 'Employee not
found' and changes nothing. -/
theorem main_move_5_2_throws :
    (ids mainCeo).Nodup ∧ mainCeo.uniqueId ≠ 5 ∧ 2 ∈ ids mainCeo ∧
    (findEmployee mainCeo 5).map ids = some [5, 6, 7] ∧
    ((EmployeeOrgApp.new mainCeo).move 5 2).thrown = some .employeeNotFound ∧
    ids ((EmployeeOrgApp.new mainCeo).move 5 2).app.ceo = ids mainCeo ∧
    ((EmployeeOrgApp.new mainCeo).move 5 2).app.undoStack = [] :=
  ⟨by decide, by decide, by decide, by decide, by decide, by decide, by decide⟩

/-- C3: on the tree 1 > 2 > 3, after `move(3, 1)` the call `undo()` throws
'Employee not found'; 3 stays a subordinate of 1 and 2 keeps no subordinate, so
the parent relation of before the move is not restored. -/
theorem undo_after_move_throws :
    childIds chain123 2 = some [3] ∧ childIds chain123 1 = some [2] ∧
    ((EmployeeOrgApp.new chain123).move 3 1).thrown = none ∧
    ((EmployeeOrgApp.new chain123).move 3 1).app.undo.thrown = some .employeeNotFound ∧
    childIds ((EmployeeOrgApp.new chain123).move 3 1).app.undo.app.ceo 2 = some [] ∧
    childIds ((EmployeeOrgApp.new chain123).move 3 1).app.undo.app.ceo 1 = some [2, 3] :=
  ⟨by decide, by decide, by decide, by decide, by decide, by decide⟩

/-- C4: on the tree 1 > 2 > 3, in the sequence `move(3, 1); undo(); redo()` the
call `undo()` throws 'Employee not found' and the call `redo()` throws 'No actions
to redo': the sequence does not complete. -/
theorem redo_after_undo_throws :
    ((EmployeeOrgApp.new chain123).move 3 1).thrown = none ∧
    ((EmployeeOrgApp.new chain123).move 3 1).app.undo.thrown = some .employeeNotFound ∧
    ((EmployeeOrgApp.new chain123).move 3 1).app.undo.app.redoStack = [] ∧
    ((EmployeeOrgApp.new chain123).move 3 1).app.undo.app.redo.thrown
      = some .noActionsToRedo :=
  ⟨by decide, by decide, by decide, by decide⟩

/-- C5, counterexample: in the state reached from the tree 1 > 2 > 3 by
`move(3, 1)` the undo stack holds the entry (3, 1); `undo()` throws 'Employee not
found' and leaves the undo stack empty: the entry was popped before the failure. -/
theorem failed_undo_pops_entry :
    ((EmployeeOrgApp.new chain123).move 3 1).app.undoStack = [⟨3, 1⟩] ∧
    (run ((EmployeeOrgApp.new chain123).move 3 1).app .undo).thrown
      = some .employeeNotFound ∧
    (run ((EmployeeOrgApp.new chain123).move 3 1).app .undo).app.undoStack = [] :=
  ⟨by decide, by decide, by decide⟩

/-- C6: in the state reached from the tree 1 > 2 > 3 by `move(3, 2)`, `undo()`
succeeds and the undo stack still holds its entry, because the inner `move`
pushed an entry again; a second `undo()` succeeds from a redo stack holding one
entry and leaves one entry, because the inner `move` emptied the redo stack
before the push. -/
theorem undo_keeps_undo_stack :
    ((EmployeeOrgApp.new chain123).move 3 2).thrown = none ∧
    ((EmployeeOrgApp.new chain123).move 3 2).app.undoStack = [⟨3, 2⟩] ∧
    ((EmployeeOrgApp.new chain123).move 3 2).app.undo.thrown = none ∧
    ((EmployeeOrgApp.new chain123).move 3 2).app.undo.app.undoStack = [⟨3, 2⟩] ∧
    ((EmployeeOrgApp.new chain123).move 3 2).app.undo.app.redoStack = [⟨3, 2⟩] ∧
    ((EmployeeOrgApp.new chain123).move 3 2).app.undo.app.undo.thrown = none ∧
    ((EmployeeOrgApp.new chain123).move 3 2).app.undo.app.undo.app.redoStack = [⟨3, 2⟩] :=
  ⟨by decide, by decide, by decide, by decide, by decide, by decide, by decide⟩

/-- C7: in the state reached from the tree 1 > 2 > 3 by `move(3, 2); undo()` the
undo stack holds one entry; `redo()` succeeds and leaves three entries: the inner
`move` pushes the entry and `redo` pushes it a second time. -/
theorem redo_pushes_twice :
    ((EmployeeOrgApp.new chain123).move 3 2).app.undo.thrown = none ∧
    ((EmployeeOrgApp.new chain123).move 3 2).app.undo.app.undoStack = [⟨3, 2⟩] ∧
    ((EmployeeOrgApp.new chain123).move 3 2).app.undo.app.redoStack = [⟨3, 2⟩] ∧
    ((EmployeeOrgApp.new chain123).move 3 2).app.undo.app.redo.thrown = none ∧
    ((EmployeeOrgApp.new chain123).move 3 2).app.undo.app.redo.app.redoStack = [] ∧
    ((EmployeeOrgApp.new chain123).move 3 2).app.undo.app.redo.app.undoStack
      = [⟨3, 2⟩, ⟨3, 2⟩, ⟨3, 2⟩] :=
  ⟨by decide, by decide, by decide, by decide, by decide, by decide⟩

/-! ## History bookkeeping of `move` -/

/-- The result of `move` when the three lookups succeed. -/
theorem move_of_lookups (app : EmployeeOrgApp) (e s : Int) (E S P : Employee)
    (hE : findEmployee app.ceo e = some E) (hS : findEmployee app.ceo s = some S)
    (hP : findSupervisor app.ceo e = .ok P) :
    app.move e s =
      { app := { ceo := updateNode (fun subs => subs ++ [E]) s
                   (updateNode (fun subs => subs.filter (fun c => c.uniqueId ≠ e))
                     P.uniqueId app.ceo)
                 undoStack := app.undoStack ++ [⟨e, s⟩]
                 redoStack := [] }
        thrown := none } := by
  simp [EmployeeOrgApp.move, hE, hS, hP]

/-- A call of `move` completes exactly when the three lookups succeed. -/
theorem move_thrown_none_iff (app : EmployeeOrgApp) (e s : Int) :
    (app.move e s).thrown = none ↔
      ∃ E S P, findEmployee app.ceo e = some E ∧ findEmployee app.ceo s = some S ∧
        findSupervisor app.ceo e = .ok P := by
  cases hE : findEmployee app.ceo e with
  | none => simp [EmployeeOrgApp.move, hE]
  | some E =>
    cases hS : findEmployee app.ceo s with
    | none => simp [EmployeeOrgApp.move, hE, hS]
    | some S =>
      cases hP : findSupervisor app.ceo e with
      | error err => simp [EmployeeOrgApp.move, hE, hS, hP]
      | ok P => simp [EmployeeOrgApp.move, hE, hS, hP]

/-- A call of `move` that throws leaves the object as it was. -/
theorem move_thrown_app (app : EmployeeOrgApp) (e s : Int)
    (h : (app.move e s).thrown ≠ none) : (app.move e s).app = app := by
  cases hE : findEmployee app.ceo e with
  | none => simp [EmployeeOrgApp.move, hE]
  | some E =>
    cases hS : findEmployee app.ceo s with
    | none => simp [EmployeeOrgApp.move, hE, hS]
    | some S =>
      cases hP : findSupervisor app.ceo e with
      | error err => simp [EmployeeOrgApp.move, hE, hS, hP]
      | ok P => exact absurd ((move_thrown_none_iff app e s).2 ⟨E, S, P, hE, hS, hP⟩) h

/-- A call of `move` that completes pushes its arguments and empties the redo
stack. -/
theorem move_ok_stacks (app : EmployeeOrgApp) (e s : Int)
    (h : (app.move e s).thrown = none) :
    (app.move e s).app.undoStack = app.undoStack ++ [⟨e, s⟩] ∧
    (app.move e s).app.redoStack = [] := by
  obtain ⟨E, S, P, hE, hS, hP⟩ := (move_thrown_none_iff app e s).1 h
  rw [move_of_lookups app e s E S P hE hS hP]
  exact ⟨rfl, rfl⟩

/-- The only error `findSupervisor` throws is 'Employee not found'. -/
theorem findSupervisor_error : ∀ (t : Employee) (e : Int) (err : Error),
    findSupervisor t e = .error err → err = .employeeNotFound
  | .mk _ _ [], _, err, h => by
    simp [findSupervisor] at h
    exact h.symm
  | .mk i n (c :: cs), e, err, h => by
    by_cases hc : c.uniqueId = e
    · simp [findSupervisor, hc] at h
    · simp only [findSupervisor, hc, if_false] at h
      exact findSupervisor_error c e err h

/-- The errors `move` throws. -/
theorem move_thrown_cases (app : EmployeeOrgApp) (e s : Int) (err : Error)
    (h : (app.move e s).thrown = some err) :
    err = .invalidEmployeeOrSupervisorID ∨ err = .employeeNotFound := by
  cases hE : findEmployee app.ceo e with
  | none =>
    simp [EmployeeOrgApp.move, hE] at h
    exact Or.inl h.symm
  | some E =>
    cases hS : findEmployee app.ceo s with
    | none =>
      simp [EmployeeOrgApp.move, hE, hS] at h
      exact Or.inl h.symm
    | some S =>
      cases hP : findSupervisor app.ceo e with
      | error err2 =>
        simp [EmployeeOrgApp.move, hE, hS, hP] at h
        subst h
        exact Or.inr (findSupervisor_error _ _ _ hP)
      | ok P => simp [EmployeeOrgApp.move, hE, hS, hP] at h

/-- A call of `undo` that throws: the tree and the redo stack are as before, the
undo stack has lost its last entry, and with 'No actions to undo' nothing
changed. -/
theorem undo_thrown_app (app : EmployeeOrgApp) (h : app.undo.thrown ≠ none) :
    app.undo.app.ceo = app.ceo ∧ app.undo.app.redoStack = app.redoStack ∧
    app.undo.app.undoStack = app.undoStack.dropLast ∧
    (app.undo.thrown = some .noActionsToUndo → app.undo.app = app) := by
  cases hL : app.undoStack.getLast? with
  | none =>
    have hnil : app.undoStack = [] := List.getLast?_eq_none_iff.1 hL
    simp [EmployeeOrgApp.undo, hL, hnil]
  | some a =>
    cases hP : findSupervisor app.ceo a.employeeID with
    | error err =>
      have := findSupervisor_error _ _ _ hP
      subst this
      simp [EmployeeOrgApp.undo, hL, hP]
    | ok P =>
      cases hr : ({ app with undoStack := app.undoStack.dropLast } : EmployeeOrgApp).move
          a.employeeID P.uniqueId |>.thrown with
      | none =>
        exfalso
        apply h
        simp [EmployeeOrgApp.undo, hL, hP, hr]
      | some err =>
        have happ := move_thrown_app { app with undoStack := app.undoStack.dropLast }
          a.employeeID P.uniqueId (by rw [hr]; simp)
        have herr := move_thrown_cases _ _ _ _ hr
        simp only [EmployeeOrgApp.undo, hL, hP, hr, happ]
        refine ⟨trivial, trivial, trivial, ?_⟩
        intro h2
        rcases herr with h3 | h3 <;> simp [h3] at h2

/-- A call of `redo` that throws: the tree and the undo stack are as before, the
redo stack has lost its last entry, and with 'No actions to redo' nothing
changed. -/
theorem redo_thrown_app (app : EmployeeOrgApp) (h : app.redo.thrown ≠ none) :
    app.redo.app.ceo = app.ceo ∧ app.redo.app.undoStack = app.undoStack ∧
    app.redo.app.redoStack = app.redoStack.dropLast ∧
    (app.redo.thrown = some .noActionsToRedo → app.redo.app = app) := by
  cases hL : app.redoStack.getLast? with
  | none =>
    have hnil : app.redoStack = [] := List.getLast?_eq_none_iff.1 hL
    simp [EmployeeOrgApp.redo, hL, hnil]
  | some a =>
    cases hr : ({ app with redoStack := app.redoStack.dropLast } : EmployeeOrgApp).move
        a.employeeID a.supervisorID |>.thrown with
    | none =>
      exfalso
      apply h
      simp [EmployeeOrgApp.redo, hL, hr]
    | some err =>
      have happ := move_thrown_app { app with redoStack := app.redoStack.dropLast }
        a.employeeID a.supervisorID (by rw [hr]; simp)
      have herr := move_thrown_cases _ _ _ _ hr
      simp only [EmployeeOrgApp.redo, hL, hr, happ]
      refine ⟨trivial, trivial, trivial, ?_⟩
      intro h2
      rcases herr with h3 | h3 <;> simp [h3] at h2

/-- C5 (amended): a call of `move`, `undo` or `redo` that throws leaves the tree
as it was; a failed `move` leaves both stacks as they were; a failed `undo` leaves
the redo stack as it was, a failed `redo` leaves the undo stack as it was; and
when the error is 'No actions to undo' (for `undo`) or 'No actions to redo' (for
`redo`) the whole object is as it was. -/
theorem failed_call_effect (app : EmployeeOrgApp) (c : Call)
    (h : (run app c).thrown ≠ none) :
    (run app c).app.ceo = app.ceo ∧
    (∀ e s, c = .move e s → (run app c).app = app) ∧
    (c = .undo → (run app c).app.redoStack = app.redoStack ∧
      ((run app c).thrown = some .noActionsToUndo → (run app c).app = app)) ∧
    (c = .redo → (run app c).app.undoStack = app.undoStack ∧
      ((run app c).thrown = some .noActionsToRedo → (run app c).app = app)) := by
  cases c with
  | move e s =>
    have hm := move_thrown_app app e s h
    refine ⟨?_, ?_, ?_, ?_⟩
    · show (app.move e s).app.ceo = app.ceo
      rw [hm]
    · intro _ _ _
      exact hm
    · intro hc
      cases hc
    · intro hc
      cases hc
  | undo =>
    obtain ⟨h1, h2, _, h4⟩ := undo_thrown_app app h
    refine ⟨h1, ?_, fun _ => ⟨h2, h4⟩, ?_⟩
    · intro _ _ hc
      cases hc
    · intro hc
      cases hc
  | redo =>
    obtain ⟨h1, h2, _, h4⟩ := redo_thrown_app app h
    refine ⟨h1, ?_, ?_, fun _ => ⟨h2, h4⟩⟩
    · intro _ _ hc
      cases hc
    · intro hc
      cases hc

/-- C5 (amended), instance: the failing `undo()` after `move(3, 1)` on the tree
1 > 2 > 3 leaves the tree and the redo stack as they were. -/
theorem failed_call_effect_witness :
    (run ((EmployeeOrgApp.new chain123).move 3 1).app .undo).thrown ≠ none ∧
    (run ((EmployeeOrgApp.new chain123).move 3 1).app .undo).app.ceo
      = ((EmployeeOrgApp.new chain123).move 3 1).app.ceo ∧
    (run ((EmployeeOrgApp.new chain123).move 3 1).app .undo).app.redoStack
      = ((EmployeeOrgApp.new chain123).move 3 1).app.redoStack :=
  ⟨by decide,
   (failed_call_effect ((EmployeeOrgApp.new chain123).move 3 1).app .undo (by decide)).1,
   ((failed_call_effect ((EmployeeOrgApp.new chain123).move 3 1).app .undo
      (by decide)).2.2.1 rfl).1⟩

/-- C8: a call `move(e, s)` that completes leaves the undo stack equal to the
previous undo stack with the entry (e, s) pushed on top, and the redo stack
empty. -/
theorem move_history_effect (app : EmployeeOrgApp) (e s : Int)
    (h : (app.move e s).thrown = none) :
    (app.move e s).app.undoStack = app.undoStack ++ [{ employeeID := e, supervisorID := s }] ∧
    (app.move e s).app.redoStack = [] :=
  move_ok_stacks app e s h

/-- C8, instance: `move(3, 1)` on the tree 1 > 2 > 3 with empty stacks. -/
theorem move_history_effect_witness :
    ((EmployeeOrgApp.new chain123).move 3 1).thrown = none ∧
    ((EmployeeOrgApp.new chain123).move 3 1).app.undoStack
      = (EmployeeOrgApp.new chain123).undoStack ++ [{ employeeID := 3, supervisorID := 1 }] ∧
    ((EmployeeOrgApp.new chain123).move 3 1).app.redoStack = [] :=
  ⟨by decide, move_history_effect (EmployeeOrgApp.new chain123) 3 1 (by decide)⟩

/-- C10: `redo()` called directly after a `move` that completed throws 'No actions
to redo' and changes nothing; in particular this holds for the second `move` of a
sequence `move(eA, sA); undo(); move(eB, sB)`. -/
theorem redo_after_move_no_history (app : EmployeeOrgApp) (eA sA eB sB : Int) :
    ((app.move eB sB).thrown = none →
      (app.move eB sB).app.redo.thrown = some .noActionsToRedo ∧
      (app.move eB sB).app.redo.app = (app.move eB sB).app) ∧
    (((app.move eA sA).app.undo.app.move eB sB).thrown = none →
      ((app.move eA sA).app.undo.app.move eB sB).app.redo.thrown
        = some .noActionsToRedo) := by
  have key : ∀ (a : EmployeeOrgApp) (e s : Int), (a.move e s).thrown = none →
      (a.move e s).app.redo.thrown = some .noActionsToRedo ∧
      (a.move e s).app.redo.app = (a.move e s).app := by
    intro a e s h
    have hr := (move_ok_stacks a e s h).2
    simp [EmployeeOrgApp.redo, hr]
  exact ⟨key app eB sB, fun h => (key _ eB sB h).1⟩

/-- C10, instance: on the tree 1 > 2 > 3 the calls `move(3, 2); undo(); move(3, 2)`
all complete, and the following `redo()` throws 'No actions to redo'. -/
theorem redo_after_move_no_history_witness :
    ((EmployeeOrgApp.new chain123).move 3 2).thrown = none ∧
    ((EmployeeOrgApp.new chain123).move 3 2).app.undo.thrown = none ∧
    (((EmployeeOrgApp.new chain123).move 3 2).app.undo.app.move 3 2).thrown = none ∧
    (((EmployeeOrgApp.new chain123).move 3 2).app.undo.app.move 3 2).app.redo.thrown
      = some .noActionsToRedo ∧
    ((EmployeeOrgApp.new chain123).move 3 2).app.redo.thrown = some .noActionsToRedo :=
  ⟨by decide, by decide, by decide,
   (redo_after_move_no_history (EmployeeOrgApp.new chain123) 3 2 3 2).2 (by decide),
   ((redo_after_move_no_history (EmployeeOrgApp.new chain123) 3 2 3 2).1 (by decide)).1⟩

/-! ## Nodes, identifiers and lookups -/

theorem nodesList_append (l₁ l₂ : List Employee) :
    nodesList (l₁ ++ l₂) = nodesList l₁ ++ nodesList l₂ := by
  induction l₁ with
  | nil => simp [nodesList]
  | cons c cs ih => simp [nodesList, ih]

theorem shapeList_cons (c : Employee) (cs : List Employee) :
    shapeList (c :: cs) = shape c ++ shapeList cs := by
  simp [shapeList, shape, nodesList]

theorem shapeList_append (l₁ l₂ : List Employee) :
    shapeList (l₁ ++ l₂) = shapeList l₁ ++ shapeList l₂ := by
  simp [shapeList, nodesList_append]

theorem shape_mk (i : Int) (n : String) (subs : List Employee) :
    shape (.mk i n subs) = (i, subs.map Employee.uniqueId) :: shapeList subs := by
  simp [shape, shapeList, nodes, entry, Employee.uniqueId, Employee.subordinates]

mutual
theorem ids_eq_map_nodes : ∀ t : Employee, ids t = (nodes t).map Employee.uniqueId
  | .mk i n subs => by
    simp [ids, nodes, Employee.uniqueId, idsList_eq_map_nodesList subs]
theorem idsList_eq_map_nodesList :
    ∀ l : List Employee, idsList l = (nodesList l).map Employee.uniqueId
  | [] => by simp [idsList, nodesList]
  | c :: cs => by
    simp [idsList, nodesList, ids_eq_map_nodes c, idsList_eq_map_nodesList cs]
end

theorem ids_eq_map_shape (t : Employee) : ids t = (shape t).map Prod.fst := by
  simp [ids_eq_map_nodes, shape, entry, Function.comp_def]

theorem idsList_eq_map_shapeList (l : List Employee) :
    idsList l = (shapeList l).map Prod.fst := by
  simp [idsList_eq_map_nodesList, shapeList, entry, Function.comp_def]

mutual
theorem findEmployee_eq_find (y : Int) : ∀ t : Employee,
    findEmployee t y = (nodes t).find? (fun n => decide (n.uniqueId = y))
  | .mk i n subs => by
    by_cases h : i = y
    · simp [findEmployee, nodes, h, Employee.uniqueId]
    · simp [findEmployee, nodes, h, Employee.uniqueId, findEmployeeLoop_eq_find y subs]
theorem findEmployeeLoop_eq_find (y : Int) : ∀ l : List Employee,
    findEmployeeLoop l y = (nodesList l).find? (fun n => decide (n.uniqueId = y))
  | [] => by simp [findEmployeeLoop, nodesList]
  | c :: cs => by
    rw [findEmployeeLoop, findEmployee_eq_find y c, findEmployeeLoop_eq_find y cs, nodesList,
      List.find?_append]
    cases (nodes c).find? (fun n => decide (n.uniqueId = y)) <;> simp
end

theorem findEmployee_some (t : Employee) (y : Int) (n : Employee)
    (h : findEmployee t y = some n) : n ∈ nodes t ∧ n.uniqueId = y := by
  rw [findEmployee_eq_find] at h
  refine ⟨List.mem_of_find?_eq_some h, ?_⟩
  have := List.find?_some h
  simpa using this

theorem findEmployee_eq_none_iff (t : Employee) (y : Int) :
    findEmployee t y = none ↔ y ∉ ids t := by
  rw [findEmployee_eq_find, ids_eq_map_nodes, List.find?_eq_none]
  simp

theorem findEmployee_isSome_iff (t : Employee) (y : Int) :
    (findEmployee t y).isSome ↔ y ∈ ids t := by
  rw [← not_iff_not, ← findEmployee_eq_none_iff]
  cases findEmployee t y <;> simp

/-- With distinct identifiers the lookup of the identifier of a node returns that
node. -/
theorem findEmployee_of_mem_nodes (t : Employee) (n : Employee) (hnd : (ids t).Nodup)
    (hn : n ∈ nodes t) : findEmployee t n.uniqueId = some n := by
  cases h : findEmployee t n.uniqueId with
  | none =>
    exfalso
    rw [findEmployee_eq_none_iff, ids_eq_map_nodes] at h
    exact h (List.mem_map_of_mem _ hn)
  | some m =>
    obtain ⟨hm, hid⟩ := findEmployee_some t _ m h
    rw [ids_eq_map_nodes] at hnd
    rw [List.inj_on_of_nodup_map hnd hm hn hid]

theorem mem_nodes_self : ∀ t : Employee, t ∈ nodes t
  | .mk i n subs => by simp [nodes]

theorem nodesList_mem_of_mem (l : List Employee) (c n : Employee) (hc : c ∈ l)
    (hn : n ∈ nodes c) : n ∈ nodesList l := by
  induction l with
  | nil => cases hc
  | cons d ds ih =>
    rw [nodesList, List.mem_append]
    rcases List.mem_cons.1 hc with h | h
    · subst h
      exact Or.inl hn
    · exact Or.inr (ih h)

theorem nodes_eq (t : Employee) : nodes t = t :: nodesList t.subordinates := by
  cases t with
  | mk i n subs => simp [nodes, Employee.subordinates]

mutual
/-- The nodes below a node of a tree are nodes of the tree. -/
theorem nodes_trans : ∀ (t n m : Employee), n ∈ nodes t → m ∈ nodes n → m ∈ nodes t
  | .mk i nm subs, n, m, hn, hm => by
    rw [nodes, List.mem_cons] at hn
    rcases hn with h | h
    · subst h
      exact hm
    · rw [nodes, List.mem_cons]
      exact Or.inr (nodesList_trans subs n m h hm)
theorem nodesList_trans : ∀ (l : List Employee) (n m : Employee),
    n ∈ nodesList l → m ∈ nodes n → m ∈ nodesList l
  | [], n, m, hn, _ => by simp [nodesList] at hn
  | c :: cs, n, m, hn, hm => by
    rw [nodesList, List.mem_append] at hn ⊢
    rcases hn with h | h
    · exact Or.inl (nodes_trans c n m h hm)
    · exact Or.inr (nodesList_trans cs n m h hm)
end

theorem mem_nodes_of_mem_subordinates (t P c : Employee) (hP : P ∈ nodes t)
    (hc : c ∈ P.subordinates) : c ∈ nodes t := by
  apply nodes_trans t P c hP
  rw [nodes_eq, List.mem_cons]
  exact Or.inr (nodesList_mem_of_mem _ c c hc (mem_nodes_self c))

/-- What `findSupervisor` returns is a node of the tree whose first subordinate
carries the identifier asked for. -/
theorem findSupervisor_ok : ∀ (t : Employee) (e : Int) (P : Employee),
    findSupervisor t e = .ok P →
      P ∈ nodes t ∧ ∃ c, P.subordinates.head? = some c ∧ c.uniqueId = e
  | .mk _ _ [], e, P, h => by simp [findSupervisor] at h
  | .mk i n (c :: cs), e, P, h => by
    by_cases hc : c.uniqueId = e
    · simp only [findSupervisor, hc, if_true, Except.ok.injEq] at h
      subst h
      exact ⟨mem_nodes_self _, c, by simp [Employee.subordinates], hc⟩
    · simp only [findSupervisor, hc, if_false] at h
      obtain ⟨h1, h2⟩ := findSupervisor_ok c e P h
      refine ⟨?_, h2⟩
      exact nodes_trans _ c P
        (mem_nodes_of_mem_subordinates _ _ c (mem_nodes_self _) (by simp [Employee.subordinates]))
        h1

mutual
theorem uniqueId_updateNode (f : List Employee → List Employee) (x : Int) :
    ∀ t : Employee, (updateNode f x t).uniqueId = t.uniqueId
  | .mk i n subs => by
    by_cases h : i = x <;> simp [updateNode, h, Employee.uniqueId]
theorem map_uniqueId_updateNodeLoop (f : List Employee → List Employee) (x : Int) :
    ∀ l : List Employee,
      (updateNodeLoop f x l).map Employee.uniqueId = l.map Employee.uniqueId
  | [] => by simp [updateNodeLoop]
  | c :: cs => by
    by_cases h : (findEmployee c x).isSome
    · simp [updateNodeLoop, h, uniqueId_updateNode f x c]
    · simp [updateNodeLoop, h, map_uniqueId_updateNodeLoop f x cs]
end

/-! ## The effect of a write on the parent relation -/

mutual
/-- A write to the node found for `x` replaces the entry of that node and the
entries below it, and leaves every other entry of the parent relation alone. -/
theorem shape_updateNode (f : List Employee → List Employee) (x : Int) :
    ∀ (t X : Employee), findEmployee t x = some X →
      ∃ rest, (shape t).Perm (entry X :: (shapeList X.subordinates ++ rest)) ∧
        (shape (updateNode f x t)).Perm
          ((x, (f X.subordinates).map Employee.uniqueId) ::
            (shapeList (f X.subordinates) ++ rest))
  | .mk i n subs, X, h => by
    by_cases hi : i = x
    · simp only [findEmployee, hi, if_true, Option.some.injEq] at h
      subst h
      subst hi
      refine ⟨[], ?_, ?_⟩
      · simp [shape_mk, entry, Employee.uniqueId, Employee.subordinates]
      · simp [updateNode, shape_mk, Employee.subordinates]
    · simp only [findEmployee, hi, if_false] at h
      obtain ⟨rest, h1, h2⟩ := shapeList_updateNodeLoop f x subs X h
      refine ⟨(i, subs.map Employee.uniqueId) :: rest, ?_, ?_⟩
      · rw [shape_mk]
        refine (List.Perm.cons _ h1).trans ?_
        rw [← Multiset.coe_eq_coe]
        simp only [← Multiset.coe_add, ← Multiset.cons_coe, ← Multiset.singleton_add]
        abel
      · simp only [updateNode, hi, if_false]
        rw [shape_mk, map_uniqueId_updateNodeLoop]
        refine (List.Perm.cons _ h2).trans ?_
        rw [← Multiset.coe_eq_coe]
        simp only [← Multiset.coe_add, ← Multiset.cons_coe, ← Multiset.singleton_add]
        abel
theorem shapeList_updateNodeLoop (f : List Employee → List Employee) (x : Int) :
    ∀ (l : List Employee) (X : Employee), findEmployeeLoop l x = some X →
      ∃ rest, (shapeList l).Perm (entry X :: (shapeList X.subordinates ++ rest)) ∧
        (shapeList (updateNodeLoop f x l)).Perm
          ((x, (f X.subordinates).map Employee.uniqueId) ::
            (shapeList (f X.subordinates) ++ rest))
  | [], X, h => by simp [findEmployeeLoop] at h
  | c :: cs, X, h => by
    cases hc : findEmployee c x with
    | some X' =>
      simp only [findEmployeeLoop, hc, Option.some.injEq] at h
      subst h
      obtain ⟨rest, h1, h2⟩ := shape_updateNode f x c X' hc
      refine ⟨rest ++ shapeList cs, ?_, ?_⟩
      · rw [shapeList_cons]
        refine (List.Perm.append_right _ h1).trans ?_
        simp
      · simp only [updateNodeLoop, hc, Option.isSome_some, if_true]
        rw [shapeList_cons]
        refine (List.Perm.append_right _ h2).trans ?_
        simp
    | none =>
      simp only [findEmployeeLoop, hc] at h
      obtain ⟨rest, h1, h2⟩ := shapeList_updateNodeLoop f x cs X h
      refine ⟨shape c ++ rest, ?_, ?_⟩
      · rw [shapeList_cons]
        refine (List.Perm.append_left _ h1).trans ?_
        rw [← Multiset.coe_eq_coe]
        simp only [← Multiset.coe_add, ← Multiset.cons_coe, ← Multiset.singleton_add]
        abel
      · simp only [updateNodeLoop, hc, Option.isSome_none, Bool.false_eq_true, if_false]
        rw [shapeList_cons]
        refine (List.Perm.append_left _ h2).trans ?_
        rw [← Multiset.coe_eq_coe]
        simp only [← Multiset.coe_add, ← Multiset.cons_coe, ← Multiset.singleton_add]
        abel
end

mutual
/-- After a write to the node found for `x`, the trees written into it are part of
the tree. -/
theorem nodes_updateNode (f : List Employee → List Employee) (x : Int) :
    ∀ (t X : Employee), findEmployee t x = some X →
      ∀ m, m ∈ nodesList (f X.subordinates) → m ∈ nodes (updateNode f x t)
  | .mk i n subs, X, h, m, hm => by
    by_cases hi : i = x
    · simp only [findEmployee, hi, if_true, Option.some.injEq] at h
      subst h
      simp only [updateNode, hi, if_true, nodes, List.mem_cons]
      exact Or.inr hm
    · simp only [findEmployee, hi, if_false] at h
      simp only [updateNode, hi, if_false, nodes, List.mem_cons]
      exact Or.inr (nodesList_updateNodeLoop f x subs X h m hm)
theorem nodesList_updateNodeLoop (f : List Employee → List Employee) (x : Int) :
    ∀ (l : List Employee) (X : Employee), findEmployeeLoop l x = some X →
      ∀ m, m ∈ nodesList (f X.subordinates) → m ∈ nodesList (updateNodeLoop f x l)
  | [], X, h, _, _ => by simp [findEmployeeLoop] at h
  | c :: cs, X, h, m, hm => by
    cases hc : findEmployee c x with
    | some X' =>
      simp only [findEmployeeLoop, hc, Option.some.injEq] at h
      subst h
      simp only [updateNodeLoop, hc, Option.isSome_some, if_true, nodesList, List.mem_append]
      exact Or.inl (nodes_updateNode f x c X' hc m hm)
    | none =>
      simp only [findEmployeeLoop, hc] at h
      simp only [updateNodeLoop, hc, Option.isSome_none, Bool.false_eq_true, if_false,
        nodesList, List.mem_append]
      exact Or.inr (nodesList_updateNodeLoop f x cs X h m hm)
end

mutual
/-- A write to an identifier that is not in the tree changes nothing. -/
theorem updateNode_of_not_found (f : List Employee → List Employee) (x : Int) :
    ∀ t : Employee, findEmployee t x = none → updateNode f x t = t
  | .mk i n subs, h => by
    by_cases hi : i = x
    · simp [findEmployee, hi] at h
    · simp only [findEmployee, hi, if_false] at h
      simp only [updateNode, hi, if_false, updateNodeLoop_of_not_found f x subs h]
theorem updateNodeLoop_of_not_found (f : List Employee → List Employee) (x : Int) :
    ∀ l : List Employee, findEmployeeLoop l x = none → updateNodeLoop f x l = l
  | [], _ => by simp [updateNodeLoop]
  | c :: cs, h => by
    cases hc : findEmployee c x with
    | some X' => simp [findEmployeeLoop, hc] at h
    | none =>
      simp only [findEmployeeLoop, hc] at h
      simp only [updateNodeLoop, hc, Option.isSome_none, Bool.false_eq_true, if_false,
        updateNodeLoop_of_not_found f x cs h]
end

theorem uniqueId_mem_ids : ∀ t : Employee, t.uniqueId ∈ ids t
  | .mk i n subs => by simp [ids, Employee.uniqueId]

theorem uniqueId_mem_idsList (l : List Employee) (c : Employee) (hc : c ∈ l) :
    c.uniqueId ∈ idsList l := by
  induction l with
  | nil => cases hc
  | cons d ds ih =>
    rw [idsList, List.mem_append]
    rcases List.mem_cons.1 hc with h | h
    · subst h
      exact Or.inl (uniqueId_mem_ids c)
    · exact Or.inr (ih h)

theorem map_uniqueId_sublist_idsList : ∀ l : List Employee,
    (l.map Employee.uniqueId).Sublist (idsList l)
  | [] => by simp [idsList]
  | .mk i n subs :: cs => by
    rw [idsList, ids, List.map_cons, List.cons_append]
    exact ((map_uniqueId_sublist_idsList cs).trans (List.sublist_append_right _ _)).cons₂ _

/-- Erasing an identifier from the identifiers of a list of subordinates with
distinct identifiers is the filter `move` applies. -/
theorem map_filter_eq_erase (l : List Employee) (e : Int)
    (hnd : (l.map Employee.uniqueId).Nodup) :
    (l.filter (fun c => decide (c.uniqueId ≠ e))).map Employee.uniqueId
      = (l.map Employee.uniqueId).erase e := by
  rw [List.Nodup.erase_eq_filter hnd, List.filter_map]
  congr 1
  apply List.filter_congr
  intro c _
  by_cases h : c.uniqueId = e <;> simp [h]

/-- Removing the subordinates with identifier `e` from a list with distinct
identifiers removes exactly the entries of the one subordinate `E` carrying it. -/
theorem shapeList_filter_split (e : Int) (E : Employee) (hid : E.uniqueId = e) :
    ∀ L : List Employee, E ∈ L → (idsList L).Nodup →
      (shapeList L).Perm
        (shape E ++ shapeList (L.filter (fun c => decide (c.uniqueId ≠ e))))
  | [], hE, _ => by cases hE
  | c :: cs, hE, hnd => by
    rw [idsList, List.nodup_append] at hnd
    obtain ⟨_, hcs, hdisj⟩ := hnd
    by_cases hc : c.uniqueId = e
    · have hnot : ∀ d ∈ cs, d.uniqueId ≠ e := by
        intro d hd hde
        exact hdisj (hc ▸ uniqueId_mem_ids c) (hde ▸ uniqueId_mem_idsList cs d hd)
      have hEc : E = c := by
        rcases List.mem_cons.1 hE with h | h
        · exact h
        · exact absurd hid (hnot E h)
      subst hEc
      have hfilter : cs.filter (fun c => decide (c.uniqueId ≠ e)) = cs := by
        rw [List.filter_eq_self]
        intro d hd
        simpa using hnot d hd
      have hf0 : (E :: cs).filter (fun c => decide (c.uniqueId ≠ e))
          = cs.filter (fun c => decide (c.uniqueId ≠ e)) := by
        simp [List.filter, hc]
      rw [hf0, hfilter, shapeList_cons]
    · have hEcs : E ∈ cs := by
        rcases List.mem_cons.1 hE with h | h
        · exact absurd (h ▸ hid) hc
        · exact h
      have ih := shapeList_filter_split e E hid cs hEcs hcs
      have hf : (c :: cs).filter (fun c => decide (c.uniqueId ≠ e))
          = c :: cs.filter (fun c => decide (c.uniqueId ≠ e)) := by
        simp [List.filter, hc]
      rw [hf, shapeList_cons, shapeList_cons]
      refine (List.Perm.append_left _ ih).trans ?_
      rw [← Multiset.coe_eq_coe]
      simp only [← Multiset.coe_add, ← Multiset.cons_coe, ← Multiset.singleton_add]
      abel

/-- In a list of pairs with distinct first components the second component is
determined by the first. -/
theorem snd_eq_of_nodup_fst {α β : Type} (l : List (α × β)) (hnd : (l.map Prod.fst).Nodup)
    (k : α) (v w : β) (hv : (k, v) ∈ l) (hw : (k, w) ∈ l) : v = w := by
  have := List.inj_on_of_nodup_map hnd hv hw rfl
  exact (Prod.mk.inj this).2

/-- With distinct identifiers the child sequences are the entries of the parent
relation. -/
theorem childIds_eq_some_iff (t : Employee) (hnd : (ids t).Nodup) (y : Int) (v : List Int) :
    childIds t y = some v ↔ (y, v) ∈ shape t := by
  constructor
  · intro h
    unfold childIds at h
    cases hf : findEmployee t y with
    | none => simp [hf] at h
    | some n =>
      obtain ⟨hn, hid⟩ := findEmployee_some t y n hf
      simp only [hf, Option.map_some', Option.some.injEq] at h
      rw [shape, List.mem_map]
      exact ⟨n, hn, by simp [entry, hid, h]⟩
  · intro h
    rw [shape, List.mem_map] at h
    obtain ⟨n, hn, hentry⟩ := h
    have hf := findEmployee_of_mem_nodes t n hnd hn
    simp only [entry, Prod.mk.injEq] at hentry
    rw [hentry.1] at hf
    simp [childIds, hf, hentry.2]

theorem childIds_eq_none_iff (t : Employee) (y : Int) :
    childIds t y = none ↔ y ∉ ids t := by
  rw [← findEmployee_eq_none_iff]
  unfold childIds
  cases findEmployee t y <;> simp

theorem shapeList_append_singleton (l : List Employee) (E : Employee) :
    shapeList (l ++ [E]) = shapeList l ++ shape E := by
  rw [shapeList_append, shapeList_cons]
  simp [shapeList, nodesList]

/-- The parent relation after the two writes of `move`, for distinct identifiers
and a supervisor outside the subtree of the employee. -/
theorem move_shape (t t1 t2 : Employee) (e s : Int) (E S P : Employee)
    (hnd : (ids t).Nodup) (hE : findEmployee t e = some E)
    (hS : findEmployee t s = some S) (hP : findSupervisor t e = .ok P) (hs : s ∉ ids E)
    (ht1 : t1 = updateNode (fun subs => subs.filter (fun c => decide (c.uniqueId ≠ e)))
      P.uniqueId t)
    (ht2 : t2 = updateNode (fun subs => subs ++ [E]) s t1) :
    findEmployee t P.uniqueId = some P ∧ E ∈ P.subordinates ∧
    (P.subordinates.map Employee.uniqueId).Nodup ∧
    (ids t2).Perm (ids t) ∧ E ∈ nodes t2 ∧
    (∀ y v, y ≠ P.uniqueId → y ≠ s → ((y, v) ∈ shape t2 ↔ (y, v) ∈ shape t)) ∧
    (P.uniqueId ≠ s →
      (P.uniqueId, (P.subordinates.filter (fun c => decide (c.uniqueId ≠ e))).map
        Employee.uniqueId) ∈ shape t2) ∧
    (P.uniqueId ≠ s → (s, S.subordinates.map Employee.uniqueId ++ [e]) ∈ shape t2) ∧
    (P.uniqueId = s →
      (s, (P.subordinates.filter (fun c => decide (c.uniqueId ≠ e))).map Employee.uniqueId
        ++ [e]) ∈ shape t2) := by
  obtain ⟨hPn, c, hhead, hcid⟩ := findSupervisor_ok t e P hP
  have hcP : c ∈ P.subordinates := List.mem_of_mem_head? hhead
  have hPf := findEmployee_of_mem_nodes t P hnd hPn
  have hcf := findEmployee_of_mem_nodes t c hnd (mem_nodes_of_mem_subordinates t P c hPn hcP)
  rw [hcid, hE, Option.some.injEq] at hcf
  subst hcf
  have hSn := findEmployee_some t s S hS
  obtain ⟨rest1, h1, h2⟩ := shape_updateNode
    (fun subs => subs.filter (fun c => decide (c.uniqueId ≠ e))) P.uniqueId t P hPf
  rw [← ht1] at h2
  have hk1 : ((entry P :: (shapeList P.subordinates ++ rest1)).map Prod.fst).Nodup :=
    (h1.map Prod.fst).nodup_iff.1 (by rw [← ids_eq_map_shape]; exact hnd)
  have hPs : (idsList P.subordinates).Nodup := by
    rw [idsList_eq_map_shapeList]
    rw [List.map_cons, List.nodup_cons, List.map_append] at hk1
    exact (List.nodup_append.1 hk1.2).1
  have hJ := shapeList_filter_split e E hcid P.subordinates hcP hPs
  have hT : (shape t).Perm (entry P :: (shape E ++
      (shapeList (P.subordinates.filter (fun c => decide (c.uniqueId ≠ e))) ++ rest1))) := by
    refine h1.trans (List.Perm.cons _ ?_)
    rw [← List.append_assoc]
    exact List.Perm.append_right rest1 hJ
  generalize hR1 :
    shapeList (P.subordinates.filter (fun c => decide (c.uniqueId ≠ e))) ++ rest1 = R1
    at hT h2
  generalize hPk :
    (P.subordinates.filter (fun c => decide (c.uniqueId ≠ e))).map Employee.uniqueId = Pk
    at h2 ⊢
  -- identifiers of the three trees
  have k1 : (ids t).Perm (P.uniqueId :: (ids E ++ R1.map Prod.fst)) := by
    have := hT.map Prod.fst
    simpa [← ids_eq_map_shape, entry] using this
  have k2 : (ids t1).Perm (P.uniqueId :: R1.map Prod.fst) := by
    have := h2.map Prod.fst
    simpa [← ids_eq_map_shape] using this
  have hnd1 : (ids t1).Nodup := by
    refine k2.nodup_iff.2 (List.Nodup.sublist ?_ (k1.nodup_iff.1 hnd))
    exact (List.sublist_append_right _ _).cons₂ _
  have hs1 : s ∈ ids t1 := by
    have hsin : s ∈ ids t := (findEmployee_isSome_iff t s).1 (by simp [hS])
    rw [k1.mem_iff] at hsin
    rw [k2.mem_iff]
    simp only [List.mem_cons, List.mem_append] at hsin ⊢
    tauto
  obtain ⟨S1, hS1⟩ : ∃ S1, findEmployee t1 s = some S1 := by
    cases h : findEmployee t1 s with
    | none => exact absurd hs1 ((findEmployee_eq_none_iff t1 s).1 h)
    | some S1 => exact ⟨S1, rfl⟩
  obtain ⟨rest2, h3, h4⟩ := shape_updateNode (fun subs => subs ++ [E]) s t1 S1 hS1
  rw [← ht2, shapeList_append_singleton] at h4
  have hS1id : S1.uniqueId = s := (findEmployee_some t1 s S1 hS1).2
  have k3 : (ids t1).Perm (s :: ((shapeList S1.subordinates).map Prod.fst ++
      rest2.map Prod.fst)) := by
    have := h3.map Prod.fst
    simpa [← ids_eq_map_shape, entry, hS1id] using this
  have k4 : (ids t2).Perm (s :: ((shapeList S1.subordinates).map Prod.fst ++ ids E ++
      rest2.map Prod.fst)) := by
    have := h4.map Prod.fst
    simpa [← ids_eq_map_shape] using this
  have hperm : (ids t2).Perm (ids t) := by
    have k23 := k2.symm.trans k3
    rw [← Multiset.coe_eq_coe] at k1 k4 k23 ⊢
    simp only [← Multiset.coe_add, ← Multiset.cons_coe, ← Multiset.singleton_add] at k1 k4 k23
    rw [k1, k4]
    have e1 : ({s} : Multiset Int) + (((shapeList S1.subordinates).map Prod.fst : List Int)
          + ((ids E : List Int) : Multiset Int) + ((rest2.map Prod.fst : List Int) : Multiset Int))
        = ((ids E : List Int) : Multiset Int) + ({s} +
          ((((shapeList S1.subordinates).map Prod.fst : List Int) : Multiset Int)
            + ((rest2.map Prod.fst : List Int) : Multiset Int))) := by abel
    rw [e1, ← k23]
    abel
  have hpE : P.uniqueId ∉ ids E := by
    have := k1.nodup_iff.1 hnd
    rw [List.nodup_cons, List.mem_append] at this
    exact fun h => this.1 (Or.inl h)
  have m0 : ∀ y v, (y, v) ∈ shape t ↔
      (y, v) = entry P ∨ (y, v) ∈ shape E ∨ (y, v) ∈ R1 := by
    intro y v
    rw [hT.mem_iff, List.mem_cons, List.mem_append]
  have m1 : ∀ y v, (y, v) ∈ shape t1 ↔ (y, v) = (P.uniqueId, Pk) ∨ (y, v) ∈ R1 := by
    intro y v
    rw [h2.mem_iff, List.mem_cons]
  have m3 : ∀ y v, (y, v) ∈ shape t1 ↔
      (y, v) = entry S1 ∨ (y, v) ∈ shapeList S1.subordinates ++ rest2 := by
    intro y v
    rw [h3.mem_iff, List.mem_cons]
  have m4 : ∀ y v, (y, v) ∈ shape t2 ↔
      (y, v) = (s, (S1.subordinates ++ [E]).map Employee.uniqueId) ∨ (y, v) ∈ shape E ∨
        (y, v) ∈ shapeList S1.subordinates ++ rest2 := by
    intro y v
    rw [h4.mem_iff, List.mem_cons]
    simp only [List.mem_append]
    tauto
  have hfstE : ∀ y v, (y, v) ∈ shape E → y ∈ ids E := by
    intro y v h
    rw [ids_eq_map_shape]
    exact List.mem_map_of_mem Prod.fst h
  refine ⟨hPf, hcP, List.Nodup.sublist (map_uniqueId_sublist_idsList _) hPs, hperm,
    ?_, ?_, ?_, ?_, ?_⟩
  · rw [ht2]
    apply nodes_updateNode (fun subs => subs ++ [E]) s t1 S1 hS1 E
    rw [nodesList_append]
    simp [nodesList, mem_nodes_self]
  · intro y v hyp hys
    have a0 := m0 y v
    have a1 := m1 y v
    have a3 := m3 y v
    have a4 := m4 y v
    simp only [entry, Prod.mk.injEq, hS1id] at a0 a1 a3 a4
    clear * - a0 a1 a3 a4 hyp hys
    tauto
  · intro hps
    have a1 := m1 P.uniqueId Pk
    have a3 := m3 P.uniqueId Pk
    have a4 := m4 P.uniqueId Pk
    simp only [entry, Prod.mk.injEq, hS1id] at a1 a3 a4
    clear * - a1 a3 a4 hps
    tauto
  · intro hps
    have hS1k : S1.subordinates.map Employee.uniqueId = S.subordinates.map Employee.uniqueId := by
      have hin : (s, S.subordinates.map Employee.uniqueId) ∈ shape t1 := by
        have hSin : (s, S.subordinates.map Employee.uniqueId) ∈ shape t := by
          rw [shape, List.mem_map]
          exact ⟨S, hSn.1, by simp [entry, hSn.2]⟩
        have a0 := m0 s (S.subordinates.map Employee.uniqueId)
        have a1 := m1 s (S.subordinates.map Employee.uniqueId)
        have hsE := fun h => hs (hfstE s (S.subordinates.map Employee.uniqueId) h)
        simp only [entry, Prod.mk.injEq] at a0 a1
        have hps2 : ¬ s = P.uniqueId := fun h => hps h.symm
        clear * - a0 a1 hsE hps2 hSin
        tauto
      have hin1 : (s, S1.subordinates.map Employee.uniqueId) ∈ shape t1 := by
        rw [m3]
        exact Or.inl (by simp [entry, hS1id])
      exact snd_eq_of_nodup_fst (shape t1) (by rw [← ids_eq_map_shape]; exact hnd1) s _ _ hin1 hin
    rw [m4, List.map_append, hS1k]
    exact Or.inl (by simp [hcid])
  · intro hps
    have hS1k : S1.subordinates.map Employee.uniqueId = Pk := by
      have hin : (s, Pk) ∈ shape t1 := by
        rw [m1]
        exact Or.inl (by rw [hps])
      have hin1 : (s, S1.subordinates.map Employee.uniqueId) ∈ shape t1 := by
        rw [m3]
        exact Or.inl (by simp [entry, hS1id])
      exact snd_eq_of_nodup_fst (shape t1) (by rw [← ids_eq_map_shape]; exact hnd1) s _ _ hin1 hin
    rw [m4, List.map_append, hS1k]
    exact Or.inl (by simp [hcid])

/-! ## The structural effect of `move` -/

/-- C9: in a tree with distinct identifiers, let `E` be the node of `e`, `S` the
node of `s` and `P` what the parent lookup returns for `e` (the three lookups of
`move`; they succeed exactly when `move(e, s)` completes), with `s` neither `e` nor
below `e`.  Then `move(e, s)` completes, `P` is a node of the tree with `E` among
its subordinates, and afterwards: the child sequence of `P` is its previous
sequence with `e` removed; the child sequence of `S` is its sequence (after that
removal when `S` is `P`) with `e` appended as last element; the node of `e` is `E`
with its subtree as before; the child sequence of every other identifier is as
before. -/
theorem move_structure (app : EmployeeOrgApp) (e s : Int) (E S P : Employee)
    (hnd : (ids app.ceo).Nodup)
    (hE : findEmployee app.ceo e = some E) (hS : findEmployee app.ceo s = some S)
    (hP : findSupervisor app.ceo e = .ok P) (hs : s ∉ ids E) :
    (app.move e s).thrown = none ∧
    findEmployee app.ceo P.uniqueId = some P ∧ E ∈ P.subordinates ∧
    (P.uniqueId ≠ s → childIds (app.move e s).app.ceo P.uniqueId
      = some ((P.subordinates.map Employee.uniqueId).erase e)) ∧
    childIds (app.move e s).app.ceo s
      = some ((if P.uniqueId = s then (S.subordinates.map Employee.uniqueId).erase e
               else S.subordinates.map Employee.uniqueId) ++ [e]) ∧
    findEmployee (app.move e s).app.ceo e = some E ∧
    (∀ y, y ≠ P.uniqueId → y ≠ s →
      childIds (app.move e s).app.ceo y = childIds app.ceo y) := by
  rw [move_of_lookups app e s E S P hE hS hP]
  obtain ⟨hPf, hEP, hPnd, hperm, hEn, hother, hp, hs1, hs2⟩ :=
    move_shape app.ceo _ _ e s E S P hnd hE hS hP hs rfl rfl
  have hnd2 := hperm.nodup_iff.2 hnd
  have hEid : E.uniqueId = e := (findEmployee_some _ _ _ hE).2
  refine ⟨rfl, hPf, hEP, ?_, ?_, ?_, ?_⟩
  · intro hps
    rw [childIds_eq_some_iff _ hnd2, ← map_filter_eq_erase _ _ hPnd]
    exact hp hps
  · rw [childIds_eq_some_iff _ hnd2]
    by_cases hps : P.uniqueId = s
    · have hSP : S = P := by
        rw [hps, hS] at hPf
        exact Option.some.inj hPf
      rw [if_pos hps, hSP, ← map_filter_eq_erase _ _ hPnd]
      exact hs2 hps
    · rw [if_neg hps]
      exact hs1 hps
  · have := findEmployee_of_mem_nodes _ E hnd2 hEn
    rw [hEid] at this
    exact this
  · intro y hyp hys
    apply Option.ext
    intro v
    rw [Option.mem_def, Option.mem_def, childIds_eq_some_iff _ hnd2,
      childIds_eq_some_iff _ hnd]
    exact hother y v hyp hys

/-- C9, instance: on the tree 1 > 2 > 3, `move(3, 1)` completes; afterwards 2 has
no subordinate, the subordinates of 1 are 2 and 3, and the node of 3 is as
before. -/
theorem move_structure_witness :
    (ids (EmployeeOrgApp.new chain123).ceo).Nodup ∧
    findEmployee (EmployeeOrgApp.new chain123).ceo 3 = some (.mk 3 "c" []) ∧
    findEmployee (EmployeeOrgApp.new chain123).ceo 1 = some chain123 ∧
    findSupervisor (EmployeeOrgApp.new chain123).ceo 3 = .ok (.mk 2 "b" [.mk 3 "c" []]) ∧
    1 ∉ ids (.mk 3 "c" []) ∧
    ((EmployeeOrgApp.new chain123).move 3 1).thrown = none ∧
    childIds ((EmployeeOrgApp.new chain123).move 3 1).app.ceo 2 = some [] ∧
    childIds ((EmployeeOrgApp.new chain123).move 3 1).app.ceo 1 = some [2, 3] ∧
    findEmployee ((EmployeeOrgApp.new chain123).move 3 1).app.ceo 3 = some (.mk 3 "c" []) := by
  have h := move_structure (EmployeeOrgApp.new chain123) 3 1 (.mk 3 "c" []) chain123
    (.mk 2 "b" [.mk 3 "c" []]) (by decide) rfl rfl rfl (by decide)
  exact ⟨by decide, rfl, rfl, rfl, by decide, h.1, h.2.2.2.1 (by decide), h.2.2.2.2.1,
    h.2.2.2.2.2.1⟩

/-! ## Errors of the three methods -/

/-- With an empty undo stack `undo` throws 'No actions to undo' and changes
nothing. -/
theorem undo_of_empty (app : EmployeeOrgApp) (h : app.undoStack = []) :
    app.undo.thrown = some .noActionsToUndo ∧ app.undo.app = app := by
  simp [EmployeeOrgApp.undo, h]

/-- With an empty redo stack `redo` throws 'No actions to redo' and changes
nothing. -/
theorem redo_of_empty (app : EmployeeOrgApp) (h : app.redoStack = []) :
    app.redo.thrown = some .noActionsToRedo ∧ app.redo.app = app := by
  simp [EmployeeOrgApp.redo, h]

/-- C11: on a freshly constructed object, for every initial tree, `undo()` throws
'No actions to undo' and `redo()` throws 'No actions to redo', and each leaves the
tree and both stacks as they were; the same holds in every state whose undo stack
(for `undo`) or redo stack (for `redo`) is empty. -/
theorem empty_history_errors (ceo : Employee) (app : EmployeeOrgApp) :
    ((EmployeeOrgApp.new ceo).undo.thrown = some .noActionsToUndo ∧
      (EmployeeOrgApp.new ceo).undo.app = EmployeeOrgApp.new ceo) ∧
    ((EmployeeOrgApp.new ceo).redo.thrown = some .noActionsToRedo ∧
      (EmployeeOrgApp.new ceo).redo.app = EmployeeOrgApp.new ceo) ∧
    (app.undoStack = [] →
      app.undo.thrown = some .noActionsToUndo ∧ app.undo.app = app) ∧
    (app.redoStack = [] →
      app.redo.thrown = some .noActionsToRedo ∧ app.redo.app = app) :=
  ⟨undo_of_empty _ rfl, redo_of_empty _ rfl, undo_of_empty app, redo_of_empty app⟩

/-- C11, instance: the state reached from the tree 1 > 2 > 3 by `move(3, 1)` has
an empty redo stack, and `redo()` throws 'No actions to redo' there; the fresh
object on the hierarchy of `main.js` has an empty undo stack, and `undo()` throws
'No actions to undo'. -/
theorem empty_history_errors_witness :
    ((EmployeeOrgApp.new chain123).move 3 1).app.redoStack = [] ∧
    ((EmployeeOrgApp.new chain123).move 3 1).app.redo.thrown = some .noActionsToRedo ∧
    (EmployeeOrgApp.new mainCeo).undoStack = [] ∧
    (EmployeeOrgApp.new mainCeo).undo.thrown = some .noActionsToUndo :=
  ⟨by decide,
   ((empty_history_errors chain123 ((EmployeeOrgApp.new chain123).move 3 1).app).2.2.2
      (by decide)).1,
   rfl,
   ((empty_history_errors mainCeo (EmployeeOrgApp.new mainCeo)).2.2.1 rfl).1⟩

/-- C12: when `e` or `s` is not an identifier of the tree, `move(e, s)` throws
'Invalid employee or supervisor ID' and leaves the tree and both stacks as they
were. -/
theorem move_unknown_id (app : EmployeeOrgApp) (e s : Int)
    (h : e ∉ ids app.ceo ∨ s ∉ ids app.ceo) :
    (app.move e s).thrown = some .invalidEmployeeOrSupervisorID ∧
    (app.move e s).app = app := by
  rcases h with h | h
  · have hE := (findEmployee_eq_none_iff app.ceo e).2 h
    simp [EmployeeOrgApp.move, hE]
  · have hS := (findEmployee_eq_none_iff app.ceo s).2 h
    cases hE : findEmployee app.ceo e <;> simp [EmployeeOrgApp.move, hE, hS]

/-- C12, instance: `move(9999, 1)` on the hierarchy of `main.js`, which has no
identifier 9999. -/
theorem move_unknown_id_witness :
    9999 ∉ ids (EmployeeOrgApp.new mainCeo).ceo ∧
    ((EmployeeOrgApp.new mainCeo).move 9999 1).thrown
      = some .invalidEmployeeOrSupervisorID ∧
    ((EmployeeOrgApp.new mainCeo).move 9999 1).app = EmployeeOrgApp.new mainCeo :=
  ⟨by decide, move_unknown_id (EmployeeOrgApp.new mainCeo) 9999 1 (Or.inl (by decide))⟩

theorem ids_eq (t : Employee) : ids t = t.uniqueId :: idsList t.subordinates := by
  cases t with
  | mk i n subs => simp [ids, Employee.uniqueId, Employee.subordinates]

theorem findEmployee_root (t : Employee) : findEmployee t t.uniqueId = some t := by
  cases t with
  | mk i n subs => simp [findEmployee, Employee.uniqueId]

/-- The subordinates of a node of a tree lie strictly below the root. -/
theorem mem_nodesList_of_mem_subordinates (t P c : Employee) (hP : P ∈ nodes t)
    (hc : c ∈ P.subordinates) : c ∈ nodesList t.subordinates := by
  rw [nodes_eq, List.mem_cons] at hP
  rcases hP with h | h
  · subst h
    exact nodesList_mem_of_mem _ c c hc (mem_nodes_self c)
  · apply nodesList_trans _ P c h
    rw [nodes_eq, List.mem_cons]
    exact Or.inr (nodesList_mem_of_mem _ c c hc (mem_nodes_self c))

/-- With distinct identifiers the parent lookup for the identifier of the root
throws 'Employee not found'. -/
theorem findSupervisor_root (t : Employee) (hnd : (ids t).Nodup) :
    findSupervisor t t.uniqueId = .error .employeeNotFound := by
  cases h : findSupervisor t t.uniqueId with
  | error err => rw [findSupervisor_error t _ err h]
  | ok P =>
    exfalso
    obtain ⟨hPn, c, hhead, hcid⟩ := findSupervisor_ok t _ P h
    have hc := mem_nodesList_of_mem_subordinates t P c hPn (List.mem_of_mem_head? hhead)
    rw [ids_eq, List.nodup_cons, idsList_eq_map_nodesList] at hnd
    apply hnd.1
    rw [← hcid]
    exact List.mem_map_of_mem _ hc

/-- C13, counterexample: on the tree 1 > 2 > 3 the call `move(1, 2)`, which moves
the root, throws 'Employee not found', while a call with an unresolved identifier,
`move(9999, 2)`, throws 'Invalid employee or supervisor ID': the two errors
differ. -/
theorem move_root_error_differs :
    chain123.uniqueId = 1 ∧ 2 ∈ ids chain123 ∧ (ids chain123).Nodup ∧
    ((EmployeeOrgApp.new chain123).move 1 2).thrown = some .employeeNotFound ∧
    ((EmployeeOrgApp.new chain123).move 9999 2).thrown
      = some .invalidEmployeeOrSupervisorID ∧
    ((EmployeeOrgApp.new chain123).move 1 2).thrown
      ≠ ((EmployeeOrgApp.new chain123).move 9999 2).thrown ∧
    Error.employeeNotFound.message ≠ Error.invalidEmployeeOrSupervisorID.message :=
  ⟨by decide, by decide, by decide, by decide, by decide, by decide, by decide⟩

/-- C13 (amended): in a tree with distinct identifiers, for every identifier `s`
of the tree, `move(rootId, s)` throws 'Employee not found', the error of the
parent lookup, and leaves the tree and both stacks as they were. -/
theorem move_root_throws (app : EmployeeOrgApp) (s : Int)
    (hnd : (ids app.ceo).Nodup) (hs : s ∈ ids app.ceo) :
    (app.move app.ceo.uniqueId s).thrown = some .employeeNotFound ∧
    (app.move app.ceo.uniqueId s).app = app := by
  have hE := findEmployee_root app.ceo
  have hP := findSupervisor_root app.ceo hnd
  cases hS : findEmployee app.ceo s with
  | none => exact absurd hs ((findEmployee_eq_none_iff _ _).1 hS)
  | some S => simp [EmployeeOrgApp.move, hE, hS, hP]

/-- C13 (amended), instance: `move(1, 8)` on the hierarchy of `main.js`. -/
theorem move_root_throws_witness :
    (ids (EmployeeOrgApp.new mainCeo).ceo).Nodup ∧
    (8 : Int) ∈ ids (EmployeeOrgApp.new mainCeo).ceo ∧
    ((EmployeeOrgApp.new mainCeo).move 1 8).thrown = some .employeeNotFound ∧
    ((EmployeeOrgApp.new mainCeo).move 1 8).app = EmployeeOrgApp.new mainCeo :=
  ⟨by decide, by decide,
   move_root_throws (EmployeeOrgApp.new mainCeo) 8 (by decide) (by decide)⟩

/-! ## Identifiers stay distinct -/

/-- The first write of `move`, for distinct identifiers: the filter at the node
the parent lookup returned takes the subtree of the employee out of the tree and
leaves every other identifier in place. -/
theorem move_filter_ids (t t1 : Employee) (e : Int) (E P : Employee)
    (hnd : (ids t).Nodup) (hE : findEmployee t e = some E)
    (hP : findSupervisor t e = .ok P)
    (ht1 : t1 = updateNode (fun subs => subs.filter (fun c => decide (c.uniqueId ≠ e)))
      P.uniqueId t) :
    (ids t).Perm (ids E ++ ids t1) := by
  obtain ⟨hPn, c, hhead, hcid⟩ := findSupervisor_ok t e P hP
  have hcP : c ∈ P.subordinates := List.mem_of_mem_head? hhead
  have hPf := findEmployee_of_mem_nodes t P hnd hPn
  have hcf := findEmployee_of_mem_nodes t c hnd (mem_nodes_of_mem_subordinates t P c hPn hcP)
  rw [hcid, hE, Option.some.injEq] at hcf
  subst hcf
  obtain ⟨rest1, h1, h2⟩ := shape_updateNode
    (fun subs => subs.filter (fun c => decide (c.uniqueId ≠ e))) P.uniqueId t P hPf
  rw [← ht1] at h2
  have hk1 : ((entry P :: (shapeList P.subordinates ++ rest1)).map Prod.fst).Nodup :=
    (h1.map Prod.fst).nodup_iff.1 (by rw [← ids_eq_map_shape]; exact hnd)
  have hPs : (idsList P.subordinates).Nodup := by
    rw [idsList_eq_map_shapeList]
    rw [List.map_cons, List.nodup_cons, List.map_append] at hk1
    exact (List.nodup_append.1 hk1.2).1
  have hJ := shapeList_filter_split e E hcid P.subordinates hcP hPs
  have k1 := (h1.trans (List.Perm.cons _ (List.Perm.append_right rest1 hJ))).map Prod.fst
  have k2 := h2.map Prod.fst
  rw [← ids_eq_map_shape] at k1 k2
  simp only [List.map_cons, List.map_append, ← ids_eq_map_shape, entry] at k1 k2
  refine k1.trans ?_
  have k2m := k2
  rw [← Multiset.coe_eq_coe] at k2m ⊢
  simp only [← Multiset.coe_add, ← Multiset.cons_coe, ← Multiset.singleton_add] at k2m ⊢
  rw [k2m]
  abel

/-- A completing `move` keeps the identifiers of the tree distinct. -/
theorem move_ceo_nodup (app : EmployeeOrgApp) (e s : Int) (hnd : (ids app.ceo).Nodup)
    (hok : (app.move e s).thrown = none) : (ids (app.move e s).app.ceo).Nodup := by
  obtain ⟨E, S, P, hE, hS, hP⟩ := (move_thrown_none_iff app e s).1 hok
  rw [move_of_lookups app e s E S P hE hS hP]
  have hf := move_filter_ids app.ceo _ e E P hnd hE hP rfl
  by_cases hs : s ∈ ids E
  · have hnd' := hf.nodup_iff.1 hnd
    rw [List.nodup_append] at hnd'
    have hnot : findEmployee (updateNode
        (fun subs => subs.filter (fun c => decide (c.uniqueId ≠ e))) P.uniqueId app.ceo) s
        = none := by
      rw [findEmployee_eq_none_iff]
      exact fun h => hnd'.2.2 hs h
    show (ids (updateNode (fun subs => subs ++ [E]) s _)).Nodup
    rw [updateNode_of_not_found _ _ _ hnot]
    exact hnd'.2.1
  · obtain ⟨_, _, _, hperm, _⟩ := move_shape app.ceo _ _ e s E S P hnd hE hS hP hs rfl rfl
    exact hperm.nodup_iff.2 hnd

/-- A completing `undo`: the stack had a last entry, the parent lookup for its
employee returned a node, the inner `move` to that node completed, and the entry
was pushed on the redo stack the inner `move` left. -/
theorem undo_ok (app : EmployeeOrgApp) (h : app.undo.thrown = none) :
    ∃ a P, app.undoStack.getLast? = some a ∧
      findSupervisor app.ceo a.employeeID = .ok P ∧
      (({ app with undoStack := app.undoStack.dropLast } : EmployeeOrgApp).move
        a.employeeID P.uniqueId).thrown = none ∧
      app.undo.app =
        { (({ app with undoStack := app.undoStack.dropLast } : EmployeeOrgApp).move
            a.employeeID P.uniqueId).app with
          redoStack := (({ app with undoStack := app.undoStack.dropLast } :
            EmployeeOrgApp).move a.employeeID P.uniqueId).app.redoStack ++ [a] } := by
  cases hL : app.undoStack.getLast? with
  | none => simp [EmployeeOrgApp.undo, hL] at h
  | some a =>
    cases hP : findSupervisor app.ceo a.employeeID with
    | error err => simp [EmployeeOrgApp.undo, hL, hP] at h
    | ok P =>
      cases hr : (({ app with undoStack := app.undoStack.dropLast } : EmployeeOrgApp).move
          a.employeeID P.uniqueId).thrown with
      | some err => simp [EmployeeOrgApp.undo, hL, hP, hr] at h
      | none =>
        refine ⟨a, P, rfl, hP, hr, ?_⟩
        simp [EmployeeOrgApp.undo, hL, hP, hr]

/-- A completing `redo`: the stack had a last entry, the inner `move` of that
entry completed, and the entry was pushed on the undo stack the inner `move`
left. -/
theorem redo_ok (app : EmployeeOrgApp) (h : app.redo.thrown = none) :
    ∃ a, app.redoStack.getLast? = some a ∧
      (({ app with redoStack := app.redoStack.dropLast } : EmployeeOrgApp).move
        a.employeeID a.supervisorID).thrown = none ∧
      app.redo.app =
        { (({ app with redoStack := app.redoStack.dropLast } : EmployeeOrgApp).move
            a.employeeID a.supervisorID).app with
          undoStack := (({ app with redoStack := app.redoStack.dropLast } :
            EmployeeOrgApp).move a.employeeID a.supervisorID).app.undoStack ++ [a] } := by
  cases hL : app.redoStack.getLast? with
  | none => simp [EmployeeOrgApp.redo, hL] at h
  | some a =>
    cases hr : (({ app with redoStack := app.redoStack.dropLast } : EmployeeOrgApp).move
        a.employeeID a.supervisorID).thrown with
    | some err => simp [EmployeeOrgApp.redo, hL, hr] at h
    | none =>
      refine ⟨a, rfl, hr, ?_⟩
      simp [EmployeeOrgApp.redo, hL, hr]

/-- C14: in a state whose tree has pairwise distinct identifiers, after a `move`,
`undo` or `redo` that completes the identifiers of the tree are still pairwise
distinct. -/
theorem ids_stay_distinct (app : EmployeeOrgApp) (c : Call)
    (hnd : (ids app.ceo).Nodup) (hok : (run app c).thrown = none) :
    (ids (run app c).app.ceo).Nodup := by
  cases c with
  | move e s => exact move_ceo_nodup app e s hnd hok
  | undo =>
    obtain ⟨a, P, _, _, hm, happ⟩ := undo_ok app hok
    show (ids app.undo.app.ceo).Nodup
    rw [happ]
    exact move_ceo_nodup _ _ _ hnd hm
  | redo =>
    obtain ⟨a, _, hm, happ⟩ := redo_ok app hok
    show (ids app.redo.app.ceo).Nodup
    rw [happ]
    exact move_ceo_nodup _ _ _ hnd hm

/-- C14, instance: `move(3, 1)` on the tree 1 > 2 > 3. -/
theorem ids_stay_distinct_witness :
    (ids (EmployeeOrgApp.new chain123).ceo).Nodup ∧
    (run (EmployeeOrgApp.new chain123) (.move 3 1)).thrown = none ∧
    (ids (run (EmployeeOrgApp.new chain123) (.move 3 1)).app.ceo).Nodup :=
  ⟨by decide, by decide,
   ids_stay_distinct (EmployeeOrgApp.new chain123) (.move 3 1) (by decide) (by decide)⟩

/-! ## The two lookups -/

/-- C15: on the tree 1 with subordinates 2 and 3 (distinct identifiers) the node 3
is a subordinate of the root, and `findSupervisor(root, 3)` throws 'Employee not
found'; on the hierarchy of `main.js` the node 5 is a subordinate of 3, and
`findSupervisor(ceo, 5)` throws 'Employee not found'. -/
theorem findSupervisor_misses_later_subordinate :
    (ids fork123).Nodup ∧ fork123.uniqueId ≠ 3 ∧ childIds fork123 1 = some [2, 3] ∧
    findSupervisor fork123 3 = .error .employeeNotFound ∧
    (ids mainCeo).Nodup ∧ mainCeo.uniqueId ≠ 5 ∧ childIds mainCeo 3 = some [4, 5] ∧
    findSupervisor mainCeo 5 = .error .employeeNotFound :=
  ⟨by decide, by decide, by decide, rfl, by decide, by decide, by decide, rfl⟩

/-- C16: `findEmployee(root, id)` returns a node exactly when some node of the tree
has identifier `id`; the node returned has identifier `id` and is the first such
node in depth-first pre-order, children in stored order (every node before it in
`nodes root` has another identifier); when no node has identifier `id` the result
is `undefined`. -/
theorem findEmployee_preorder (root : Employee) (id : Int) :
    ((findEmployee root id).isSome ↔ ∃ n, n ∈ nodes root ∧ n.uniqueId = id) ∧
    (∀ n, findEmployee root id = some n →
      n.uniqueId = id ∧
      ∃ before after, nodes root = before ++ n :: after ∧
        ∀ m, m ∈ before → m.uniqueId ≠ id) ∧
    ((∀ n, n ∈ nodes root → n.uniqueId ≠ id) → findEmployee root id = none) := by
  rw [findEmployee_eq_find]
  refine ⟨?_, ?_, ?_⟩
  · rw [List.find?_isSome]
    simp
  · intro n hn
    rw [List.find?_eq_some] at hn
    obtain ⟨h1, before, after, h2, h3⟩ := hn
    refine ⟨by simpa using h1, before, after, h2, ?_⟩
    intro m hm
    simpa using h3 m hm
  · intro h
    rw [List.find?_eq_none]
    intro n hn
    simpa using h n hn

/-- C16, instance: on the hierarchy of `main.js`, identifier 12 is found and
identifier 9999 is not. -/
theorem findEmployee_preorder_witness :
    ((findEmployee mainCeo 12).map Employee.uniqueId = some 12) ∧
    (∀ n, n ∈ nodes mainCeo → n.uniqueId ≠ 9999) ∧
    findEmployee mainCeo 9999 = none := by
  have h : ∀ n, n ∈ nodes mainCeo → n.uniqueId ≠ 9999 := by
    intro n hn hid
    have : (9999 : Int) ∈ ids mainCeo := by
      rw [ids_eq_map_nodes, ← hid]
      exact List.mem_map_of_mem _ hn
    revert this
    decide
  exact ⟨by decide, h, (findEmployee_preorder mainCeo 9999).2.2 h⟩

/-- C18: on the tree 1 > 2 > 3 (distinct identifiers) the employee 2 is not the
root, its subtree holds 2 and 3, and the parent lookup for 2 returns the root.
`move(2, 3)`, whose supervisor is below the employee, and `move(2, 2)`, whose
supervisor is the employee, both complete, record their arguments on the undo
stack, and leave a tree in which 2 is no longer found: only the root remains. -/
theorem move_into_own_subtree :
    (ids chain123).Nodup ∧ chain123.uniqueId ≠ 2 ∧
    (findEmployee chain123 2).map ids = some [2, 3] ∧
    (findSupervisor chain123 2).toOption.map Employee.uniqueId = some 1 ∧
    ((EmployeeOrgApp.new chain123).move 2 3).thrown = none ∧
    ((EmployeeOrgApp.new chain123).move 2 3).app.undoStack = [⟨2, 3⟩] ∧
    ids ((EmployeeOrgApp.new chain123).move 2 3).app.ceo = [1] ∧
    (findEmployee ((EmployeeOrgApp.new chain123).move 2 3).app.ceo 2).isSome = false ∧
    ((EmployeeOrgApp.new chain123).move 2 2).thrown = none ∧
    ((EmployeeOrgApp.new chain123).move 2 2).app.undoStack = [⟨2, 2⟩] ∧
    ids ((EmployeeOrgApp.new chain123).move 2 2).app.ceo = [1] ∧
    (findEmployee ((EmployeeOrgApp.new chain123).move 2 2).app.ceo 2).isSome = false :=
  ⟨by decide, by decide, by decide, by decide, by decide, by decide, by decide, by decide,
   by decide, by decide, by decide, by decide⟩

theorem spine_eq_cons : ∀ t : Employee, spine t = t :: (spine t).tail
  | .mk _ _ [] => by simp [spine]
  | .mk _ _ (_ :: _) => by simp [spine]

/-- `findSupervisor` computes the lookup along the leftmost spine. -/
theorem findSupervisor_eq_spineLookup : ∀ (n : Employee) (id : Int),
    findSupervisor n id = spineLookup n id
  | .mk _ _ [], id => by simp [findSupervisor, spineLookup, spine]
  | .mk i nm (c :: cs), id => by
    have ih := findSupervisor_eq_spineLookup c id
    have hz : (spine (.mk i nm (c :: cs))).zip (spine (.mk i nm (c :: cs))).tail
        = (.mk i nm (c :: cs), c) :: (spine c).zip (spine c).tail := by
      have hc := spine_eq_cons c
      simp only [spine, List.tail_cons]
      generalize spine c = l at hc ⊢
      rw [hc]
      simp
    by_cases hc : c.uniqueId = id
    · simp [findSupervisor, spineLookup, hz, hc]
    · rw [findSupervisor, if_neg hc, ih]
      simp [spineLookup, hz, hc]

/-- The nodes of the leftmost spine are nodes of the tree. -/
theorem spine_subset_nodes : ∀ (t m : Employee), m ∈ spine t → m ∈ nodes t
  | .mk _ _ [], m, h => by
    simp only [spine, List.mem_singleton] at h
    subst h
    exact mem_nodes_self _
  | .mk i nm (c :: cs), m, h => by
    simp only [spine, List.mem_cons] at h
    rcases h with h | h
    · subst h
      exact mem_nodes_self _
    · exact nodes_trans _ c m
        (mem_nodes_of_mem_subordinates _ _ c (mem_nodes_self _)
          (by simp [Employee.subordinates]))
        (spine_subset_nodes c m h)

/-- When no spine node below the start carries the identifier, the parent lookup
throws 'Employee not found'. -/
theorem findSupervisor_of_not_on_spine : ∀ (n : Employee) (id : Int),
    (∀ m, m ∈ (spine n).tail → m.uniqueId ≠ id) →
      findSupervisor n id = .error .employeeNotFound
  | .mk _ _ [], id, _ => by simp [findSupervisor]
  | .mk i nm (c :: cs), id, h => by
    have hc : c.uniqueId ≠ id := by
      apply h
      rw [spine, List.tail_cons, spine_eq_cons c]
      exact List.mem_cons_self _ _
    rw [findSupervisor, if_neg hc]
    apply findSupervisor_of_not_on_spine c id
    intro m hm
    apply h
    rw [spine, List.tail_cons]
    exact List.mem_of_mem_tail hm

/-- When the spine node of index `k + 1` is the first one below the start that
carries the identifier, the parent lookup returns the spine node of index `k`. -/
theorem findSupervisor_of_spine_index : ∀ (n : Employee) (id : Int) (k : Nat),
    ((spine n)[k + 1]?).map Employee.uniqueId = some id →
    (∀ j, j < k → ((spine n)[j + 1]?).map Employee.uniqueId ≠ some id) →
      ∃ p, (spine n)[k]? = some p ∧ findSupervisor n id = .ok p
  | .mk _ _ [], id, k, h, _ => by simp [spine] at h
  | .mk i nm (c :: cs), id, 0, h, _ => by
    have hc : c.uniqueId = id := by
      rw [spine, spine_eq_cons c] at h
      simpa using h
    exact ⟨.mk i nm (c :: cs), by simp [spine], by simp [findSupervisor, hc]⟩
  | .mk i nm (c :: cs), id, k + 1, h, hmin => by
    have hc : c.uniqueId ≠ id := by
      have := hmin 0 (Nat.succ_pos k)
      rw [spine, spine_eq_cons c] at this
      simpa using this
    have h1 : ((spine c)[k + 1]?).map Employee.uniqueId = some id := by
      rw [spine] at h
      simpa using h
    have h2 : ∀ j, j < k → ((spine c)[j + 1]?).map Employee.uniqueId ≠ some id := by
      intro j hj
      have := hmin (j + 1) (Nat.succ_lt_succ hj)
      rw [spine] at this
      simpa using this
    obtain ⟨p, hp1, hp2⟩ := findSupervisor_of_spine_index c id k h1 h2
    refine ⟨p, ?_, ?_⟩
    · rw [spine]
      simpa using hp1
    · rw [findSupervisor, if_neg hc]
      exact hp2

/-- C19: `findSupervisor(n, id)` inspects only the first subordinate at each level.
With the leftmost spine `spine n` (the start, its first subordinate, and so on),
it is the lookup `spineLookup`; it returns the spine node of index `k` when the
spine node of index `k + 1` is the first one below the start with identifier `id`;
it throws 'Employee not found' when no spine node below the start has identifier
`id`, in particular when `id` does not occur under the first subordinate, when
`id` is absent from the tree, and, for distinct identifiers, when `id` is the
identifier of the start itself. -/
theorem findSupervisor_first_subordinates (n : Employee) (id : Int) :
    findSupervisor n id = spineLookup n id ∧
    (∀ k, ((spine n)[k + 1]?).map Employee.uniqueId = some id →
      (∀ j, j < k → ((spine n)[j + 1]?).map Employee.uniqueId ≠ some id) →
        ∃ p, (spine n)[k]? = some p ∧ findSupervisor n id = .ok p) ∧
    ((∀ m, m ∈ (spine n).tail → m.uniqueId ≠ id) →
      findSupervisor n id = .error .employeeNotFound) ∧
    (∀ i nm c cs, n = .mk i nm (c :: cs) → id ∉ ids c →
      findSupervisor n id = .error .employeeNotFound) ∧
    (id ∉ ids n → findSupervisor n id = .error .employeeNotFound) ∧
    ((ids n).Nodup → findSupervisor n n.uniqueId = .error .employeeNotFound) := by
  refine ⟨findSupervisor_eq_spineLookup n id, findSupervisor_of_spine_index n id,
    findSupervisor_of_not_on_spine n id, ?_, ?_, findSupervisor_root n⟩
  · intro i nm c cs hn hid
    apply findSupervisor_of_not_on_spine
    intro m hm hmid
    apply hid
    rw [hn, spine, List.tail_cons] at hm
    rw [ids_eq_map_nodes, ← hmid]
    exact List.mem_map_of_mem _ (spine_subset_nodes c m hm)
  · intro hid
    apply findSupervisor_of_not_on_spine
    intro m hm hmid
    apply hid
    rw [ids_eq_map_nodes, ← hmid]
    exact List.mem_map_of_mem _ (spine_subset_nodes n m (List.mem_of_mem_tail hm))

/-- C19, instance: on the hierarchy of `main.js` the leftmost spine is 1, 2, 3, 4;
the lookup for 3 returns the node 2, and the lookup for 8, which is the second
subordinate of the root, throws 'Employee not found'. -/
theorem findSupervisor_first_subordinates_witness :
    (spine mainCeo).map Employee.uniqueId = [1, 2, 3, 4] ∧
    (∃ p, (spine mainCeo)[1]? = some p ∧ findSupervisor mainCeo 3 = .ok p) ∧
    (8 : Int) ∉ ids (.mk 2 "Sarah Donald"
        [ .mk 3 "Cassandra Reynolds"
            [ .mk 4 "Mary Blue" [],
              .mk 5 "Bob Saget" [ .mk 6 "Tina Teff" [ .mk 7 "Will Turner" [] ] ] ] ]) ∧
    findSupervisor mainCeo 8 = .error .employeeNotFound :=
  ⟨by decide,
   (findSupervisor_first_subordinates mainCeo 3).2.1 1 (by decide) (by decide),
   by decide,
   (findSupervisor_first_subordinates mainCeo 8).2.2.2.1 _ _ _ _ rfl (by decide)⟩

/-! ## Depth of the redo stack -/

/-- After a completing `undo` the redo stack holds exactly the popped entry. -/
theorem undo_ok_redoStack (app : EmployeeOrgApp) (h : app.undo.thrown = none) :
    ∃ a, app.undoStack.getLast? = some a ∧ app.undo.app.redoStack = [a] := by
  obtain ⟨a, P, hL, _, hm, happ⟩ := undo_ok app h
  refine ⟨a, hL, ?_⟩
  rw [happ]
  simp [(move_ok_stacks _ _ _ hm).2]

/-- After a completing `redo` the redo stack is empty. -/
theorem redo_ok_redoStack (app : EmployeeOrgApp) (h : app.redo.thrown = none) :
    app.redo.app.redoStack = [] := by
  obtain ⟨a, _, hm, happ⟩ := redo_ok app h
  rw [happ]
  exact (move_ok_stacks _ _ _ hm).2

/-- One call, completing or throwing, keeps a redo stack of at most one entry at
most one entry long. -/
theorem run_redoStack_length (app : EmployeeOrgApp) (c : Call)
    (h : app.redoStack.length ≤ 1) : (run app c).app.redoStack.length ≤ 1 := by
  cases hc : (run app c).thrown with
  | none =>
    cases c with
    | move e s =>
      have := (move_ok_stacks app e s hc).2
      show (app.move e s).app.redoStack.length ≤ 1
      simp [this]
    | undo =>
      obtain ⟨a, _, ha⟩ := undo_ok_redoStack app hc
      show app.undo.app.redoStack.length ≤ 1
      simp [ha]
    | redo =>
      have := redo_ok_redoStack app hc
      show app.redo.app.redoStack.length ≤ 1
      simp [this]
  | some err =>
    have hne : (run app c).thrown ≠ none := by simp [hc]
    cases c with
    | move e s =>
      have := move_thrown_app app e s hne
      show (app.move e s).app.redoStack.length ≤ 1
      rw [this]
      exact h
    | undo =>
      have := (undo_thrown_app app hne).2.1
      show app.undo.app.redoStack.length ≤ 1
      rw [this]
      exact h
    | redo =>
      have := (redo_thrown_app app hne).2.2.1
      show app.redo.app.redoStack.length ≤ 1
      rw [this, List.length_dropLast]
      omega

/-- A sequence of calls keeps a redo stack of at most one entry at most one entry
long. -/
theorem runAll_redoStack_length (calls : List Call) :
    ∀ app : EmployeeOrgApp, app.redoStack.length ≤ 1 →
      (runAll app calls).redoStack.length ≤ 1 := by
  induction calls with
  | nil =>
    intro app h
    exact h
  | cons c cs ih =>
    intro app h
    exact ih _ (run_redoStack_length app c h)

/-- C20: in every state reached from a freshly constructed object by a sequence of
`move`, `undo` and `redo` calls, completing or throwing, the redo stack holds at
most one entry; after a completing `undo` it is exactly the popped entry, and
after a completing `move` or `redo` it is empty. -/
theorem redo_depth_at_most_one (ceo : Employee) (calls : List Call)
    (app : EmployeeOrgApp) :
    (runAll (EmployeeOrgApp.new ceo) calls).redoStack.length ≤ 1 ∧
    (app.undo.thrown = none →
      ∃ a, app.undoStack.getLast? = some a ∧ app.undo.app.redoStack = [a]) ∧
    (∀ e s, (app.move e s).thrown = none → (app.move e s).app.redoStack = []) ∧
    (app.redo.thrown = none → app.redo.app.redoStack = []) :=
  ⟨runAll_redoStack_length calls _ (by simp [EmployeeOrgApp.new]),
   undo_ok_redoStack app,
   fun e s h => (move_ok_stacks app e s h).2,
   redo_ok_redoStack app⟩

/-- C20, instance: from the fresh object on the tree 1 > 2 > 3, after
`move(3, 2); undo(); undo()` the redo stack holds one entry, and the `undo()` and
`redo()` that complete in the state after `move(3, 2)` and after `move(3, 2);
undo()` leave the redo stack with the popped entry and empty. -/
theorem redo_depth_at_most_one_witness :
    (runAll (EmployeeOrgApp.new chain123) [.move 3 2, .undo, .undo]).redoStack.length ≤ 1 ∧
    ((EmployeeOrgApp.new chain123).move 3 2).app.undo.thrown = none ∧
    (∃ a, ((EmployeeOrgApp.new chain123).move 3 2).app.undoStack.getLast? = some a ∧
      ((EmployeeOrgApp.new chain123).move 3 2).app.undo.app.redoStack = [a]) ∧
    ((EmployeeOrgApp.new chain123).move 3 2).app.undo.app.redo.thrown = none ∧
    ((EmployeeOrgApp.new chain123).move 3 2).app.undo.app.redo.app.redoStack = [] :=
  ⟨(redo_depth_at_most_one chain123 [.move 3 2, .undo, .undo]
      (EmployeeOrgApp.new chain123)).1,
   by decide,
   (redo_depth_at_most_one chain123 [] ((EmployeeOrgApp.new chain123).move 3 2).app).2.1
     (by decide),
   by decide,
   (redo_depth_at_most_one chain123 []
     ((EmployeeOrgApp.new chain123).move 3 2).app.undo.app).2.2.2 (by decide)⟩

/-! ## What `undo` does to the tree -/

theorem ids_subset_idsList (l : List Employee) (c : Employee) (hc : c ∈ l) (x : Int)
    (hx : x ∈ ids c) : x ∈ idsList l := by
  induction l with
  | nil => cases hc
  | cons d ds ih =>
    rw [idsList, List.mem_append]
    rcases List.mem_cons.1 hc with h | h
    · subst h
      exact Or.inl hx
    · exact Or.inr (ih h)

/-- With distinct identifiers, the node the parent lookup returns is the node of
its identifier, has the node of the employee among its subordinates, and does not
lie in the subtree of the employee. -/
theorem supervisor_not_in_subtree (t : Employee) (e : Int) (E P : Employee)
    (hnd : (ids t).Nodup) (hE : findEmployee t e = some E)
    (hP : findSupervisor t e = .ok P) :
    findEmployee t P.uniqueId = some P ∧ E ∈ P.subordinates ∧ P.uniqueId ∉ ids E := by
  obtain ⟨hPn, c, hhead, hcid⟩ := findSupervisor_ok t e P hP
  have hcP : c ∈ P.subordinates := List.mem_of_mem_head? hhead
  have hPf := findEmployee_of_mem_nodes t P hnd hPn
  have hcf := findEmployee_of_mem_nodes t c hnd (mem_nodes_of_mem_subordinates t P c hPn hcP)
  rw [hcid, hE, Option.some.injEq] at hcf
  subst hcf
  refine ⟨hPf, hcP, ?_⟩
  obtain ⟨rest, h1, _⟩ := shape_updateNode (fun subs => subs) P.uniqueId t P hPf
  have hk := (h1.map Prod.fst).nodup_iff.1 (by rw [← ids_eq_map_shape]; exact hnd)
  rw [List.map_cons, List.nodup_cons, List.map_append, ← idsList_eq_map_shapeList] at hk
  intro hin
  apply hk.1
  rw [List.mem_append]
  exact Or.inl (ids_subset_idsList _ E hcP _ hin)

/-- Moving an employee to the node the parent lookup returns for it, for distinct
identifiers: the employee becomes the last subordinate of that node and no other
child sequence changes. -/
theorem move_to_current_parent (t t2 : Employee) (e : Int) (E P : Employee)
    (hnd : (ids t).Nodup) (hE : findEmployee t e = some E)
    (hP : findSupervisor t e = .ok P)
    (ht2 : t2 = updateNode (fun subs => subs ++ [E]) P.uniqueId
      (updateNode (fun subs => subs.filter (fun c => decide (c.uniqueId ≠ e)))
        P.uniqueId t)) :
    (ids t2).Perm (ids t) ∧
    (P.subordinates.map Employee.uniqueId).Nodup ∧
    e ∈ P.subordinates.map Employee.uniqueId ∧
    childIds t P.uniqueId = some (P.subordinates.map Employee.uniqueId) ∧
    childIds t2 P.uniqueId
      = some ((P.subordinates.map Employee.uniqueId).erase e ++ [e]) ∧
    (∀ y, y ≠ P.uniqueId → childIds t2 y = childIds t y) := by
  obtain ⟨hPf, hEP, hnotin⟩ := supervisor_not_in_subtree t e E P hnd hE hP
  obtain ⟨_, _, hPnd, hperm, _, hother, _, _, hsame⟩ :=
    move_shape t _ t2 e P.uniqueId E P P hnd hE hPf hP hnotin rfl ht2
  have hnd2 := hperm.nodup_iff.2 hnd
  have hEid : E.uniqueId = e := (findEmployee_some _ _ _ hE).2
  refine ⟨hperm, hPnd, ?_, ?_, ?_, ?_⟩
  · rw [← hEid]
    exact List.mem_map_of_mem _ hEP
  · simp [childIds, hPf]
  · rw [childIds_eq_some_iff _ hnd2, ← map_filter_eq_erase _ _ hPnd]
    exact hsame rfl
  · intro y hy
    apply Option.ext
    intro v
    rw [Option.mem_def, Option.mem_def, childIds_eq_some_iff _ hnd2,
      childIds_eq_some_iff _ hnd]
    exact hother y v hy hy

/-- C17: in a state whose tree has pairwise distinct identifiers and in which
`undo()` completes, the parent relation after `undo()` is the parent relation
before it.  The inner `move` targets the node `P` the parent lookup returns for the
employee of the popped entry, its current parent: the employee is taken out of the
child sequence of `P` and appended to it again, and no other child sequence
changes. -/
theorem undo_keeps_parent_relation (app : EmployeeOrgApp)
    (hnd : (ids app.ceo).Nodup) (hok : app.undo.thrown = none) :
    (∀ y x, isParent app.undo.app.ceo y x = isParent app.ceo y x) ∧
    ∃ a P, app.undoStack.getLast? = some a ∧
      findSupervisor app.ceo a.employeeID = .ok P ∧
      a.employeeID ∈ P.subordinates.map Employee.uniqueId ∧
      childIds app.ceo P.uniqueId = some (P.subordinates.map Employee.uniqueId) ∧
      childIds app.undo.app.ceo P.uniqueId
        = some ((P.subordinates.map Employee.uniqueId).erase a.employeeID
            ++ [a.employeeID]) ∧
      (∀ y, y ≠ P.uniqueId → childIds app.undo.app.ceo y = childIds app.ceo y) := by
  obtain ⟨a, P, hL, hP, hm, happ⟩ := undo_ok app hok
  obtain ⟨E, S, P2, hE, hS, hP2⟩ := (move_thrown_none_iff _ _ _).1 hm
  have hceo : app.undo.app.ceo
      = updateNode (fun subs => subs ++ [E]) P.uniqueId
          (updateNode (fun subs => subs.filter (fun c => decide (c.uniqueId ≠ a.employeeID)))
            P2.uniqueId app.ceo) := by
    rw [happ, move_of_lookups _ _ _ E S P2 hE hS hP2]
  have hPP : P2 = P := by
    have : findSupervisor app.ceo a.employeeID = .ok P2 := hP2
    rw [hP] at this
    exact (Except.ok.inj this).symm
  subst hPP
  obtain ⟨_, hPnd, hmem, hbefore, hafter, hother⟩ :=
    move_to_current_parent app.ceo _ a.employeeID E P2 hnd hE hP hceo
  refine ⟨?_, a, P2, hL, hP, hmem, hbefore, hafter, hother⟩
  intro y x
  by_cases hy : y = P2.uniqueId
  · subst hy
    simp only [isParent, hbefore, hafter]
    rw [decide_eq_decide, List.mem_append, List.mem_singleton, hPnd.mem_erase_iff]
    constructor
    · rintro (⟨_, h⟩ | h)
      · exact h
      · exact h ▸ hmem
    · intro h
      by_cases hx : x = a.employeeID
      · exact Or.inr hx
      · exact Or.inl ⟨hx, h⟩
  · simp only [isParent, hother y hy]

/-- C17, instance: in the state reached from the tree 1 > 2 > 3 by `move(3, 2)`,
`undo()` completes and 3 is still the subordinate of 2, 2 of 1. -/
theorem undo_keeps_parent_relation_witness :
    (ids ((EmployeeOrgApp.new chain123).move 3 2).app.ceo).Nodup ∧
    ((EmployeeOrgApp.new chain123).move 3 2).app.undo.thrown = none ∧
    (∀ y x, isParent ((EmployeeOrgApp.new chain123).move 3 2).app.undo.app.ceo y x
      = isParent ((EmployeeOrgApp.new chain123).move 3 2).app.ceo y x) ∧
    isParent ((EmployeeOrgApp.new chain123).move 3 2).app.undo.app.ceo 2 3 = true ∧
    isParent ((EmployeeOrgApp.new chain123).move 3 2).app.undo.app.ceo 1 2 = true :=
  ⟨by decide, by decide,
   (undo_keeps_parent_relation ((EmployeeOrgApp.new chain123).move 3 2).app
     (by decide) (by decide)).1,
   by decide, by decide⟩
